import Mathlib

/-!
Verification development for the `prickle` order-book reconstruction library
(`prickle/core.py`).  The Python classes `Message`, `Order`, `Orderlist`,
`Book`, `Booklist` and `Messagelist`, together with the per-message section of
the `unpack` driver loop, are shallowly embedded below.  Python dictionaries
are modelled as association lists (first binding wins, assignment replaces the
first binding in place, `pop` drops it), which matches dict semantics for every
operation the source performs (`in`, indexing, assignment, `pop`, `len`,
`sorted(keys)`).
-/

namespace Prickle

/-- Dict lookup `d[k]` / `k in d`: value of the first binding of `k`. -/
def lookupA {α β : Type} [DecidableEq α] (k : α) : List (α × β) → Option β
  | [] => none
  | p :: rest => if p.1 = k then some p.2 else lookupA k rest

/-- Dict assignment `d[k] = v`: replace the first binding in place, else append. -/
def setA {α β : Type} [DecidableEq α] (k : α) (v : β) : List (α × β) → List (α × β)
  | [] => [(k, v)]
  | p :: rest => if p.1 = k then (k, v) :: rest else p :: setA k v rest

/-- Dict `d.pop(k)`: drop the first binding of `k`. -/
def eraseA {α β : Type} [DecidableEq α] (k : α) : List (α × β) → List (α × β)
  | [] => []
  | p :: rest => if p.1 = k then rest else p :: eraseA k rest

/-- Dict `d.keys()`. -/
def keysA {α β : Type} : List (α × β) → List α := List.map Prod.fst

/-- Sum of `G` over the bindings of an association list. -/
def sumBy {α β : Type} (G : α × β → Int) (l : List (α × β)) : Int := (l.map G).sum

/-- The message type tags that occur in `prickle/core.py` (`Message.type`);
`Uplus` is the `'U+'` tag produced by `Message.split` for the add-half of a
replace. -/
inductive MType where
  | T | S | H | A | F | E | C | X | D | U | Uplus | P | Q | I
  deriving DecidableEq

/-- The `Message` class.  Field defaults are the constructor defaults of the
source (`date='.'`, `sec=-1`, `nano=-1`, `name='.'`, `buysell='.'`, `price=-1`,
`shares=0`, `refno=-1`, `newrefno=-1`).  The `event` and `mpid` fields are not
read by any of the order-book code modelled here and are omitted. -/
structure Message where
  date : String := "."
  name : String := "."
  sec : Int := -1
  nano : Int := -1
  mtype : MType
  buysell : Char := '.'
  price : Int := -1
  shares : Int := 0
  refno : Int := -1
  newrefno : Int := -1
  deriving DecidableEq

/-- `Message.split`: converts a replace message into the informational `'U'`
marker, a `'D'` delete of the old refno, and a `'U+'` add-half.  Fields not
passed to the `Message(...)` constructors in the source keep their defaults. -/
def Message.split (m : Message) : Message × Message × Message :=
  ({ date := m.date, sec := m.sec, nano := m.nano, mtype := .U, price := m.price,
     shares := m.shares, refno := m.refno, newrefno := m.newrefno },
   { date := m.date, sec := m.sec, nano := m.nano, mtype := .D, refno := m.refno,
     newrefno := -1 },
   { date := m.date, sec := m.sec, nano := m.nano, mtype := .Uplus, price := m.price,
     shares := m.shares, refno := m.refno, newrefno := m.newrefno })

/-- The `Order` class (resting-order record stored by `Orderlist`). -/
structure Order where
  name : String
  buysell : Char
  price : Int
  shares : Int
  deriving DecidableEq

/-- `Orderlist.orders`: dict from reference number to `Order`. -/
abbrev Orderlist := List (Int × Order)

/-- `Orderlist.complete_message`: look up the `Order` for a message and fill in
missing data (the source mutates the message in place; here the completed
message is returned). -/
def Orderlist.complete_message (ol : Orderlist) (m : Message) : Message :=
  match lookupA m.refno ol with
  | none => m
  | some ref =>
    match m.mtype with
    | .U => { m with name := ref.name, buysell := ref.buysell }
    | .Uplus =>
      { m with mtype := .A, name := ref.name, buysell := ref.buysell,
               refno := m.newrefno, newrefno := -1 }
    | .E | .C | .X =>
      { m with name := ref.name, buysell := ref.buysell,
               price := ref.price, shares := -m.shares }
    | .D =>
      { m with name := ref.name, buysell := ref.buysell,
               price := ref.price, shares := -ref.shares }
    | _ => m

/-- `Orderlist.add`: store a new `Order` under the message's refno. -/
def Orderlist.add (ol : Orderlist) (m : Message) : Orderlist :=
  setA m.refno ⟨m.name, m.buysell, m.price, m.shares⟩ ol

/-- `Orderlist.update`: decrement shares on execute/cancel, pop on delete;
unknown refnos are ignored. -/
def Orderlist.update (ol : Orderlist) (m : Message) : Orderlist :=
  match lookupA m.refno ol with
  | none => ol
  | some ref =>
    match m.mtype with
    | .E | .X | .C => setA m.refno { ref with shares := ref.shares + m.shares } ol
    | .D => eraseA m.refno ol
    | _ => ol

/-- The `Book` class.  The `min_bid`/`max_ask` fields of the source are float
infinities that are initialised and never read or written again; they are
omitted. -/
structure Book where
  bids : List (Int × Int)
  asks : List (Int × Int)
  levels : Nat
  sec : Int
  nano : Int
  date : String
  name : String
  deriving DecidableEq

/-- `Book.__init__`. -/
def Book.init (date name : String) (levels : Nat) : Book :=
  { bids := [], asks := [], levels := levels, sec := -1, nano := -1,
    date := date, name := name }

/-- `Book.update`: stamp the timestamp, then apply the share delta to the side
given by `buysell`; a level hitting exactly zero is popped; a missing price key
is only created for add (`'A'`/`'F'`) messages. -/
def Book.update (b : Book) (m : Message) : Book :=
  let b1 := { b with sec := m.sec, nano := m.nano }
  if m.buysell = 'B' then
    match lookupA m.price b1.bids with
    | some v =>
      if v + m.shares = 0 then { b1 with bids := eraseA m.price b1.bids }
      else { b1 with bids := setA m.price (v + m.shares) b1.bids }
    | none =>
      if m.mtype = .A ∨ m.mtype = .F then
        { b1 with bids := setA m.price m.shares b1.bids }
      else b1
  else if m.buysell = 'S' then
    match lookupA m.price b1.asks with
    | some v =>
      if v + m.shares = 0 then { b1 with asks := eraseA m.price b1.asks }
      else { b1 with asks := setA m.price (v + m.shares) b1.asks }
    | none =>
      if m.mtype = .A ∨ m.mtype = .F then
        { b1 with asks := setA m.price m.shares b1.asks }
      else b1
  else b1

/-- `sorted(self.bids.keys(), reverse=True)` (high-to-low). -/
def sortedBidKeys (b : Book) : List Int := List.insertionSort (· ≥ ·) (keysA b.bids)

/-- `sorted(self.asks.keys())` (low-to-high). -/
def sortedAskKeys (b : Book) : List Int := List.insertionSort (· ≤ ·) (keysA b.asks)

/-- The bid-price segment of `Book.to_array` (`levels` entries, zero padded). -/
def bidPrices (b : Book) : List Int :=
  (List.range b.levels).map
    (fun i => if i < b.bids.length then (sortedBidKeys b).getD i 0 else 0)

/-- The ask-price segment of `Book.to_array`. -/
def askPrices (b : Book) : List Int :=
  (List.range b.levels).map
    (fun i => if i < b.asks.length then (sortedAskKeys b).getD i 0 else 0)

/-- The bid-depth segment of `Book.to_array` (`self.bids[sorted_bids[i]]`). -/
def bidDepths (b : Book) : List Int :=
  (List.range b.levels).map
    (fun i => if i < b.bids.length then
        (lookupA ((sortedBidKeys b).getD i 0) b.bids).getD 0
      else 0)

/-- The ask-depth segment of `Book.to_array`. -/
def askDepths (b : Book) : List Int :=
  (List.range b.levels).map
    (fun i => if i < b.asks.length then
        (lookupA ((sortedAskKeys b).getD i 0) b.asks).getD 0
      else 0)

/-- `Book.to_array`: the snapshot row `[sec, nano] + bid prices + ask prices +
bid depths + ask depths`. -/
def Book.to_array (b : Book) : List Int :=
  b.sec :: b.nano :: (bidPrices b ++ askPrices b ++ bidDepths b ++ askDepths b)

/-- One element of a book's `hist` list: `b.to_array()` (a flat numeric row)
under the `'hdf5'` method, or `b.to_list()` (the same numeric row prefixed by
the `date` and `name` strings) under the `'postgres'` method. -/
inductive Row where
  | arr (vals : List Int)
  | lst (date name : String) (vals : List Int)
  deriving DecidableEq

/-- `Book.to_list`: `[date, name, sec, nano] + the same four segments as
`to_array``; the two string entries are carried separately and the numeric
tail is exactly `to_array`. -/
def Book.to_list (b : Book) : Row :=
  Row.lst b.date b.name b.to_array

/-- One entry of `Booklist.books`: `{'hist': [...], 'cur': Book(...)}`. -/
structure BookEntry where
  hist : List Row
  cur : Book
  deriving DecidableEq

/-- The `Booklist` class (`books` dict plus the configured `method`). -/
structure Booklist where
  books : List (String × BookEntry)
  method : String
  deriving DecidableEq

/-- A record handed to an external sink, in emission order: a message-sink
record (`messagelist.add`) or a book-sink snapshot row (the row
`Booklist.update` appends to `hist`). -/
inductive Emit where
  | msg (name : String) (m : Message)
  | snap (name : String) (row : Row)
  deriving DecidableEq

/-- The rows one `Booklist.update` call appends to `hist`: the source checks
`method == 'hdf5'` (append `b.to_array()`) and then `method == 'postgres'`
(append `b.to_list()`) in sequence, so any other method appends nothing and
the two can never both fire. -/
def Booklist.rows (method : String) (b : Book) : List Row :=
  (if method = "hdf5" then [Row.arr b.to_array] else [])
    ++ (if method = "postgres" then [b.to_list] else [])

/-- `Booklist.update`: update the current book for `message.name` and append
the method's snapshot row to its history.  The second component is the list
of snapshot rows emitted to the book sink by this call.  A missing name would
raise `KeyError` in the source; the driver only calls this for subscribed
names, which are always present. -/
def Booklist.update (bl : Booklist) (m : Message) : Booklist × List Emit :=
  match lookupA m.name bl.books with
  | none => (bl, [])
  | some e =>
    let b := Book.update e.cur m
    let rows := Booklist.rows bl.method b
    ({ bl with books := setA m.name ⟨e.hist ++ rows, b⟩ bl.books },
     rows.map (Emit.snap m.name))

/-- `Messagelist.messages`: dict from name to recorded messages. -/
abbrev Messagelist := List (String × List Message)

/-- `Messagelist.add`: append the message to the list of its name (an unknown
name is reported and dropped in the source). -/
def Messagelist.add (ml : Messagelist) (m : Message) : Messagelist :=
  match lookupA m.name ml with
  | none => ml
  | some l => setA m.name (l ++ [m]) ml

/-- The mutable state of the `unpack` driver loop that the order-book claims
are about: the order registry, the per-symbol books, and the message sink. -/
structure PState where
  orderlist : Orderlist
  booklist : Booklist
  messagelist : Messagelist
  deriving DecidableEq

/-- The "complete message" section of `unpack` (one fully processed event):
replace messages are split and completed against the registry, then — if the
resolved name is subscribed — applied as registry delete, book delete, registry
add, book add, and the informational marker is recorded; execute/cancel/delete
messages are completed, then applied to registry and book; adds go straight to
registry and book.  The second component is the trace of sink records emitted
by this event, in the order the source emits them. -/
def step (names : List String) (st : PState) (m : Message) : PState × List Emit :=
  match m.mtype with
  | .U =>
    let message := Orderlist.complete_message st.orderlist (Message.split m).1
    let del_message := Orderlist.complete_message st.orderlist (Message.split m).2.1
    let add_message := Orderlist.complete_message st.orderlist (Message.split m).2.2
    if message.name ∈ names then
      let ol1 := Orderlist.update st.orderlist del_message
      let blp1 := Booklist.update st.booklist del_message
      let ol2 := Orderlist.add ol1 add_message
      let blp2 := Booklist.update blp1.1 add_message
      let ml := Messagelist.add st.messagelist message
      (⟨ol2, blp2.1, ml⟩, blp1.2 ++ blp2.2 ++ [Emit.msg message.name message])
    else (st, [])
  | .E | .C | .X | .D =>
    let message := Orderlist.complete_message st.orderlist m
    if message.name ∈ names then
      let ol := Orderlist.update st.orderlist message
      let blp := Booklist.update st.booklist message
      let ml := Messagelist.add st.messagelist message
      (⟨ol, blp.1, ml⟩, blp.2 ++ [Emit.msg message.name message])
    else (st, [])
  | .A | .F =>
    if m.name ∈ names then
      let ol := Orderlist.add st.orderlist m
      let blp := Booklist.update st.booklist m
      let ml := Messagelist.add st.messagelist m
      (⟨ol, blp.1, ml⟩, blp.2 ++ [Emit.msg m.name m])
    else (st, [])
  | _ => (st, [])

/-- Process a list of events through `step`. -/
def runMsgs (names : List String) (st : PState) : List Message → PState
  | [] => st
  | m :: ms => runMsgs names (step names st m).1 ms

/-- The state `unpack` starts from: empty registry, one empty book and one
empty message list per subscribed name. -/
def initState (date : String) (names : List String) (levels : Nat)
    (method : String) : PState :=
  { orderlist := [],
    booklist := ⟨names.map (fun n => (n, ⟨[], Book.init date n levels⟩)), method⟩,
    messagelist := names.map (fun n => (n, [])) }

/-- Sum of values of a book side (aggregate depth over all levels). -/
def valsSum (m : List (Int × Int)) : Int := sumBy (fun p => p.2) m

/-- Sum of `RestingOrder.shares` over all registry entries for one symbol. -/
def regSum (ol : Orderlist) (n : String) : Int :=
  sumBy (fun p => if p.2.name = n then p.2.shares else 0) ol

/-- Sum of registry shares for one symbol restricted to one side. -/
def regSumSide (ol : Orderlist) (n : String) (side : Char) : Int :=
  sumBy (fun p => if p.2.name = n ∧ p.2.buysell = side then p.2.shares else 0) ol

/-- Sum of registry shares for the orders resting at one (symbol, side, price)
key — the shares the book level at that key should aggregate. -/
def ordSumAt (ol : Orderlist) (n : String) (side : Char) (price : Int) : Int :=
  sumBy (fun p => if p.2.name = n ∧ p.2.buysell = side ∧ p.2.price = price
      then p.2.shares else 0) ol

/-- Per-symbol book/registry consistency: every level equals the registry share
sum at its key (a missing key aggregates zero), every stored level is strictly
positive, and each side's total depth equals the registry share total of that
side. -/
structure BookInv (ol : Orderlist) (n : String) (b : Book) : Prop where
  bidsNodup : (keysA b.bids).Nodup
  asksNodup : (keysA b.asks).Nodup
  bidLevel : ∀ p : Int, (lookupA p b.bids).getD 0 = ordSumAt ol n 'B' p
  askLevel : ∀ p : Int, (lookupA p b.asks).getD 0 = ordSumAt ol n 'S' p
  bidPos : ∀ p v, lookupA p b.bids = some v → 0 < v
  askPos : ∀ p v, lookupA p b.asks = some v → 0 < v
  bidTotal : regSumSide ol n 'B' = valsSum b.bids
  askTotal : regSumSide ol n 'S' = valsSum b.asks

/-- Reachable-state invariant of registry and book set. -/
structure InvOB (names : List String) (ol : Orderlist) (bl : Booklist) : Prop where
  olNodup : (keysA ol).Nodup
  ordersOK : ∀ p ∈ ol, 0 ≤ p.2.shares ∧ p.2.name ∈ names ∧
      (p.2.buysell = 'B' ∨ p.2.buysell = 'S')
  books : ∀ n ∈ names, ∃ e, lookupA n bl.books = some e ∧ BookInv ol n e.cur

/-- The invariant on a pipeline state. -/
def Inv (names : List String) (st : PState) : Prop :=
  InvOB names st.orderlist st.booklist

/-- Well-formedness of one feed event relative to the current state: wire
share counts are non-negative (adds strictly positive), adds carry a real side
and a fresh reference number, executes/cancels never remove more shares than
the referenced order has left, reference-only messages carry the placeholder
name, and a replace's new refno is not live when its add-half is applied. -/
def okMsgB (names : List String) (st : PState) (m : Message) : Bool :=
  match m.mtype with
  | .A | .F =>
      decide (0 < m.shares) && decide (m.buysell = 'B' ∨ m.buysell = 'S') &&
      (!decide (m.name ∈ names) || (lookupA m.refno st.orderlist).isNone)
  | .E | .C | .X =>
      decide (m.name = ".") && decide (0 ≤ m.shares) &&
      (match lookupA m.refno st.orderlist with
       | none => true
       | some o => decide (m.shares ≤ o.shares))
  | .D => decide (m.name = ".")
  | .U =>
      decide (m.name = ".") && decide (0 < m.shares) &&
      (match lookupA m.refno st.orderlist with
       | none => true
       | some _ =>
         (lookupA m.newrefno st.orderlist).isNone || decide (m.newrefno = m.refno))
  | _ => true

/-- Well-formedness of a feed, checked event by event along the run. -/
def okRunB (names : List String) : PState → List Message → Bool
  | _, [] => true
  | st, m :: ms => okMsgB names st m && okRunB names (step names st m).1 ms

/-- The bare assumption of claim C1, checked along the run: the feed never
issues an add (nor a replace add-half) whose reference number is still live,
reference-only messages carry the placeholder name, and wire share counts are
non-negative.  (No bound relating executed shares to resting shares.) -/
def freshAddsB (names : List String) : PState → List Message → Bool
  | _, [] => true
  | st, m :: ms =>
    (match m.mtype with
     | .A | .F => (lookupA m.refno st.orderlist).isNone && decide (0 ≤ m.shares)
     | .E | .C | .X => decide (m.name = ".") && decide (0 ≤ m.shares)
     | .D => decide (m.name = ".")
     | .U => decide (m.name = ".") && decide (0 ≤ m.shares) &&
         (lookupA m.newrefno (eraseA m.refno st.orderlist)).isNone
     | _ => true) && freshAddsB names (step names st m).1 ms

/-- The v5.0 timestamp combination exactly as written in `protocol`
(`message.nano = temp[2] | (temp[3] << 16)`, where `temp[2]` is the high
16-bit word of the 48-bit big-endian timestamp and `temp[3]` the low 32-bit
word). -/
def v5Nano (tsHigh tsLow : Nat) : Nat := tsHigh ||| (tsLow <<< 16)

/-- Written to the spec's words ("combined `hi<<32 | lo`"): the intended
reassembly of the 48-bit nanosecond timestamp, for comparison with `v5Nano`. -/
def specNanoV5 (tsHigh tsLow : Nat) : Nat := (tsHigh <<< 32) ||| tsLow

/-- The `'A'` branch of `protocol` for version 5.0 (struct layout
`>HHHIQsI8sI`): stock locate and tracking number are discarded, `sec` is the
running clock, `nano` is `v5Nano` of the two timestamp words. -/
def protocolA_v5 (tsHigh tsLow : Nat) (refno : Nat) (buysell : Char)
    (shares : Nat) (name : String) (price : Nat) (time : Int) : Message :=
  { mtype := .A, sec := time, nano := Int.ofNat (v5Nano tsHigh tsLow),
    refno := Int.ofNat refno, buysell := buysell, shares := Int.ofNat shares,
    name := name, price := Int.ofNat price }

/-- Sample feed event: add 50 shares bid for GOOG at 4000000 under refno 1. -/
def addGoog : Message :=
  { mtype := .A, name := "GOOG", buysell := 'B', price := 4000000, shares := 50,
    refno := 1, sec := 34201, nano := 0, date := "0" }

/-- Sample feed event: a second GOOG bid, 30 shares at 4000100 under refno 2. -/
def addGoog2 : Message :=
  { mtype := .A, name := "GOOG", buysell := 'B', price := 4000100, shares := 30,
    refno := 2, sec := 34201, nano := 10, date := "0" }

/-- Sample feed event: an add carrying zero shares. -/
def addGoogZero : Message :=
  { mtype := .A, name := "GOOG", buysell := 'B', price := 4000000, shares := 0,
    refno := 1, sec := 34201, nano := 0, date := "0" }

/-- Sample feed event: execute 50 shares against refno 1. -/
def execGoog50 : Message :=
  { mtype := .E, refno := 1, shares := 50, sec := 34201, nano := 100 }

/-- Sample feed event: execute 10 shares against refno 1. -/
def execGoog10 : Message :=
  { mtype := .E, refno := 1, shares := 10, sec := 34201, nano := 200 }

/-- Sample feed event: delete refno 1. -/
def delGoog : Message :=
  { mtype := .D, refno := 1, sec := 34201, nano := 300 }

/-- Sample feed event: replace refno 1 by refno 2, 50 shares at 4010000. -/
def replGoog : Message :=
  { mtype := .U, refno := 1, newrefno := 2, shares := 50, price := 4010000,
    sec := 34201, nano := 50 }

/-- Sample feed event: a replace whose new refno equals its old refno. -/
def replGoogSame : Message :=
  { mtype := .U, refno := 1, newrefno := 1, shares := 50, price := 4010000,
    sec := 34201, nano := 50 }

/-- Sample initial state: subscribed to GOOG only, two levels, hdf5 sink. -/
def st0 : PState := initState "0" ["GOOG"] 2 "hdf5"

/-- The version-5.0 normalisation in `get_message`:
`sec = int(nano / 10**9)`, `nano = nano % 10**9`.  For the non-negative values
a 48-bit timestamp produces, Python's `int(nano / 10**9)` agrees with floor
division (the float quotient is never within rounding error of an integer
boundary below 2^48), so it is embedded as integer division. -/
def get_message_v5 (m : Message) : Message :=
  { m with sec := m.nano / 10 ^ 9, nano := m.nano % 10 ^ 9 }

/-- The completed informational marker of a replace, as computed by the
`unpack` loop (`message` after `complete_message`). -/
def replMark (ol : Orderlist) (m : Message) : Message :=
  Orderlist.complete_message ol (Message.split m).1

/-- The completed delete-half of a replace (`del_message` after
`complete_message`). -/
def replDel (ol : Orderlist) (m : Message) : Message :=
  Orderlist.complete_message ol (Message.split m).2.1

/-- The completed add-half of a replace (`add_message` after
`complete_message`). -/
def replAdd (ol : Orderlist) (m : Message) : Message :=
  Orderlist.complete_message ol (Message.split m).2.2

/-- Sample feed event: an execute whose refno was never added. -/
def execUnknown : Message :=
  { mtype := .E, refno := 99, shares := 5, sec := 34201, nano := 400 }

/-- Sample one-level book used to exercise `Book.update` and `Book.to_array`. -/
def bexBook : Book :=
  { bids := [(4000000, 50)], asks := [(4000500, 20)], levels := 2, sec := 1,
    nano := 2, date := "0", name := "GOOG" }

/-- Sample execute at a price absent from both sides of `bexBook`. -/
def mexMsg : Message :=
  { mtype := .E, buysell := 'B', price := 3999999, shares := -10, refno := 1,
    sec := 34205, nano := 7 }

/-- State after processing the single add `addGoog` from `st0`. -/
def st1 : PState := runMsgs ["GOOG"] st0 [addGoog]

/-- State after `addGoog` and a full execute of its 50 shares. -/
def st2 : PState := runMsgs ["GOOG"] st0 [addGoog, execGoog50]

/-- The book entry resting at "GOOG" in `st1` (one history row, one bid). -/
def st1Entry : BookEntry :=
  ⟨[Row.arr [34201, 0, 4000000, 0, 0, 0, 50, 0, 0, 0]],
   { bids := [(4000000, 50)], asks := [], levels := 2, sec := 34201, nano := 0,
     date := "0", name := "GOOG" }⟩

/-- The book entry resting at "GOOG" in `st2` (two history rows, empty book). -/
def st2Entry : BookEntry :=
  ⟨[Row.arr [34201, 0, 4000000, 0, 0, 0, 50, 0, 0, 0],
    Row.arr [34201, 100, 0, 0, 0, 0, 0, 0, 0, 0]],
   { bids := [], asks := [], levels := 2, sec := 34201, nano := 100,
     date := "0", name := "GOOG" }⟩

/-! ### Association-list (dict) lemmas -/

variable {α β : Type} [DecidableEq α]

@[simp] theorem keysA_nil : keysA ([] : List (α × β)) = [] := rfl

@[simp] theorem keysA_cons (p : α × β) (l : List (α × β)) :
    keysA (p :: l) = p.1 :: keysA l := rfl

theorem lookupA_setA_self (k : α) (v : β) (l : List (α × β)) :
    lookupA k (setA k v l) = some v := by
  induction l with
  | nil => simp [setA, lookupA]
  | cons p rest ih =>
    by_cases h : p.1 = k
    · simp [setA, h, lookupA]
    · simp [setA, h, lookupA, ih]

theorem lookupA_setA_ne {k k' : α} (h : k' ≠ k) (v : β) (l : List (α × β)) :
    lookupA k' (setA k v l) = lookupA k' l := by
  have hk : ¬ k = k' := fun hh => h hh.symm
  induction l with
  | nil => simp [setA, lookupA, hk]
  | cons p rest ih =>
    by_cases hp : p.1 = k
    · simp [setA, hp, lookupA, hk]
    · simp only [setA, if_neg hp, lookupA, ih]

theorem lookupA_eq_none {k : α} {l : List (α × β)} :
    lookupA k l = none ↔ k ∉ keysA l := by
  induction l with
  | nil => simp [lookupA]
  | cons p rest ih =>
    by_cases hp : p.1 = k
    · simp [lookupA, hp]
    · have hk : ¬ k = p.1 := fun hh => hp hh.symm
      simp [lookupA, hp, ih, hk]

theorem lookupA_eraseA_ne {k k' : α} (h : k' ≠ k) (l : List (α × β)) :
    lookupA k' (eraseA k l) = lookupA k' l := by
  induction l with
  | nil => simp [eraseA]
  | cons p rest ih =>
    by_cases hp : p.1 = k
    · have hpk : ¬ p.1 = k' := fun hh => h (hh ▸ hp)
      simp only [eraseA, if_pos hp, lookupA, if_neg hpk]
    · simp only [eraseA, if_neg hp, lookupA, ih]

theorem lookupA_eraseA_self {k : α} {l : List (α × β)}
    (h : (keysA l).Nodup) : lookupA k (eraseA k l) = none := by
  induction l with
  | nil => simp [eraseA, lookupA]
  | cons p rest ih =>
    simp only [keysA_cons, List.nodup_cons] at h
    by_cases hp : p.1 = k
    · simp only [eraseA, if_pos hp]
      exact lookupA_eq_none.2 (hp ▸ h.1)
    · simp only [eraseA, if_neg hp, lookupA, if_neg hp]
      exact ih h.2

theorem eraseA_sublist (k : α) (l : List (α × β)) : (eraseA k l).Sublist l := by
  induction l with
  | nil => simp [eraseA]
  | cons p rest ih =>
    by_cases hp : p.1 = k
    · simpa [eraseA, hp] using List.sublist_cons p rest
    · simpa [eraseA, hp] using ih.cons₂ p

theorem mem_eraseA {k : α} {p : α × β} {l : List (α × β)}
    (h : p ∈ eraseA k l) : p ∈ l :=
  (eraseA_sublist k l).subset h

theorem mem_setA {k : α} {v : β} {p : α × β} {l : List (α × β)}
    (h : p ∈ setA k v l) : p = (k, v) ∨ p ∈ l := by
  induction l with
  | nil => simpa [setA] using h
  | cons q rest ih =>
    by_cases hq : q.1 = k
    · simp only [setA, if_pos hq] at h
      rcases List.mem_cons.1 h with h1 | h2
      · exact Or.inl h1
      · exact Or.inr (List.mem_cons_of_mem q h2)
    · simp only [setA, if_neg hq] at h
      rcases List.mem_cons.1 h with h1 | h2
      · exact Or.inr (h1 ▸ List.mem_cons_self q rest)
      · rcases ih h2 with h3 | h4
        · exact Or.inl h3
        · exact Or.inr (List.mem_cons_of_mem q h4)

theorem mem_of_lookupA {k : α} {v : β} {l : List (α × β)}
    (h : lookupA k l = some v) : (k, v) ∈ l := by
  induction l with
  | nil => simp [lookupA] at h
  | cons p rest ih =>
    by_cases hp : p.1 = k
    · simp only [lookupA, if_pos hp, Option.some.injEq] at h
      cases p with
      | mk a b =>
        simp only at hp h
        subst hp; subst h
        exact List.mem_cons_self _ _
    · simp only [lookupA, if_neg hp] at h
      exact List.mem_cons_of_mem p (ih h)

theorem mem_keysA_setA {a k : α} {v : β} {l : List (α × β)}
    (h : a ∈ keysA (setA k v l)) : a = k ∨ a ∈ keysA l := by
  induction l with
  | nil => simpa [setA] using h
  | cons p rest ih =>
    by_cases hp : p.1 = k
    · simp only [setA, if_pos hp, keysA_cons] at h ⊢
      rcases List.mem_cons.1 h with h1 | h2
      · exact Or.inl h1
      · exact Or.inr (List.mem_cons_of_mem _ h2)
    · simp only [setA, if_neg hp, keysA_cons] at h ⊢
      rcases List.mem_cons.1 h with h1 | h2
      · exact Or.inr (h1 ▸ List.mem_cons_self _ _)
      · rcases ih h2 with h3 | h4
        · exact Or.inl h3
        · exact Or.inr (List.mem_cons_of_mem _ h4)

theorem keysA_setA_nodup {k : α} {v : β} {l : List (α × β)}
    (h : (keysA l).Nodup) : (keysA (setA k v l)).Nodup := by
  induction l with
  | nil => simp [setA]
  | cons p rest ih =>
    simp only [keysA_cons, List.nodup_cons] at h
    by_cases hp : p.1 = k
    · simp only [setA, if_pos hp, keysA_cons, List.nodup_cons]
      exact ⟨hp ▸ h.1, h.2⟩
    · simp only [setA, if_neg hp, keysA_cons, List.nodup_cons]
      refine ⟨fun hmem => ?_, ih h.2⟩
      rcases mem_keysA_setA hmem with h1 | h2
      · exact hp h1
      · exact h.1 h2

theorem keysA_eraseA_nodup {k : α} {l : List (α × β)}
    (h : (keysA l).Nodup) : (keysA (eraseA k l)).Nodup :=
  List.Nodup.sublist ((eraseA_sublist k l).map Prod.fst) h

theorem setA_absent {k : α} {l : List (α × β)} (h : lookupA k l = none) (v : β) :
    setA k v l = l ++ [(k, v)] := by
  induction l with
  | nil => simp [setA]
  | cons p rest ih =>
    by_cases hp : p.1 = k
    · simp [lookupA, hp] at h
    · simp only [lookupA, if_neg hp] at h
      simp [setA, hp, ih h]

theorem setA_lookup_self {k : α} {v : β} {l : List (α × β)}
    (h : lookupA k l = some v) : setA k v l = l := by
  induction l with
  | nil => simp [lookupA] at h
  | cons p rest ih =>
    by_cases hp : p.1 = k
    · simp only [lookupA, if_pos hp, Option.some.injEq] at h
      cases p with
      | mk a b =>
        simp only at hp h
        subst hp; subst h
        simp [setA]
    · simp only [lookupA, if_neg hp] at h
      simp [setA, hp, ih h]

theorem sumBy_append (G : α × β → Int) (l l' : List (α × β)) :
    sumBy G (l ++ l') = sumBy G l + sumBy G l' := by
  simp [sumBy]

theorem sumBy_setA {k : α} {v : β} {l : List (α × β)} (G : α × β → Int)
    (h : lookupA k l = some v) (v' : β) :
    sumBy G (setA k v' l) = sumBy G l - G (k, v) + G (k, v') := by
  induction l with
  | nil => simp [lookupA] at h
  | cons p rest ih =>
    by_cases hp : p.1 = k
    · simp only [lookupA, if_pos hp, Option.some.injEq] at h
      cases p with
      | mk a b =>
        simp only at hp h
        subst hp; subst h
        simp [setA, sumBy]
        omega
    · simp only [lookupA, if_neg hp] at h
      simp only [setA, if_neg hp, sumBy, List.map_cons, List.sum_cons]
      have hih := ih h
      simp only [sumBy] at hih
      rw [hih]; ring

theorem sumBy_eraseA {k : α} {v : β} {l : List (α × β)} (G : α × β → Int)
    (h : lookupA k l = some v) :
    sumBy G (eraseA k l) = sumBy G l - G (k, v) := by
  induction l with
  | nil => simp [lookupA] at h
  | cons p rest ih =>
    by_cases hp : p.1 = k
    · simp only [lookupA, if_pos hp, Option.some.injEq] at h
      cases p with
      | mk a b =>
        simp only at hp h
        subst hp; subst h
        simp [eraseA, sumBy]
    · simp only [lookupA, if_neg hp] at h
      simp only [eraseA, if_neg hp, sumBy, List.map_cons, List.sum_cons]
      have hih := ih h
      simp only [sumBy] at hih
      rw [hih]; ring

theorem sumBy_nonneg {G : α × β → Int} {l : List (α × β)}
    (h : ∀ p ∈ l, 0 ≤ G p) : 0 ≤ sumBy G l := by
  induction l with
  | nil => simp [sumBy]
  | cons p rest ih =>
    simp only [sumBy, List.map_cons, List.sum_cons]
    have h1 := h p (List.mem_cons_self p rest)
    have h2 := ih (fun q hq => h q (List.mem_cons_of_mem p hq))
    simp only [sumBy] at h2
    omega

theorem le_sumBy {G : α × β → Int} {l : List (α × β)} {k : α} {v : β}
    (hmem : (k, v) ∈ l) (h : ∀ p ∈ l, 0 ≤ G p) : G (k, v) ≤ sumBy G l := by
  induction l with
  | nil => simp at hmem
  | cons p rest ih =>
    simp only [sumBy, List.map_cons, List.sum_cons]
    rcases List.mem_cons.1 hmem with h1 | h2
    · have h2 := sumBy_nonneg (fun q hq => h q (List.mem_cons_of_mem p hq))
      simp only [sumBy] at h2
      rw [← h1]; omega
    · have h3 := ih h2
      have h4 := h p (List.mem_cons_self p rest)
      simp only [sumBy] at h3
      have h5 := h3 (fun q hq => h q (List.mem_cons_of_mem p hq))
      omega

theorem lookupA_map_self {γ : Type} {n : α} {ns : List α} (f : α → γ)
    (h : n ∈ ns) : lookupA n (ns.map (fun x => (x, f x))) = some (f n) := by
  induction ns with
  | nil => simp at h
  | cons a tl ih =>
    by_cases ha : a = n
    · subst ha; simp [lookupA]
    · rcases List.mem_cons.1 h with h1 | h2
      · exact absurd h1.symm ha
      · simpa [lookupA, ha] using ih h2


/-! ### Snapshot-row structure lemmas -/

theorem map_getD_range (l : List Int) :
    ∀ k, k ≤ l.length → (List.range k).map (fun i => l.getD i 0) = l.take k := by
  induction l with
  | nil =>
    intro k hk
    simp only [List.length_nil, Nat.le_zero] at hk
    subst hk; simp
  | cons x tl ih =>
    intro k hk
    cases k with
    | zero => simp
    | succ j =>
      have h2 : j ≤ tl.length := by simpa using hk
      rw [List.range_succ_eq_map]
      simp only [List.map_cons, List.map_map, List.take_succ_cons]
      have h3 := ih j h2
      simp only [List.getD_cons_zero]
      rw [show ((fun i => (x :: tl).getD i 0) ∘ Nat.succ) = fun i => tl.getD i 0 from rfl]
      rw [h3]

theorem map_range_if (g : Nat → Int) (nb N : Nat) :
    (List.range N).map (fun i => if i < nb then g i else 0)
      = (List.range (min nb N)).map g ++ List.replicate (N - nb) 0 := by
  induction N with
  | zero => simp
  | succ M ih =>
    rw [List.range_succ, List.map_append, ih]
    by_cases h : M < nb
    · have h1 : min nb (M + 1) = M + 1 := by omega
      have h2 : M + 1 - nb = 0 := by omega
      have h3 : min nb M = M := by omega
      have h4 : M - nb = 0 := by omega
      simp [h1, h2, h3, h4, List.range_succ, if_pos h]
    · have h1 : min nb (M + 1) = min nb M := by omega
      have h2 : M + 1 - nb = (M - nb) + 1 := by omega
      simp [h1, h2, if_neg h, List.replicate_succ']

theorem sortedBidKeys_length (b : Book) :
    (sortedBidKeys b).length = b.bids.length := by
  have h := (List.perm_insertionSort (fun a b : Int => a >= b) (keysA b.bids)).length_eq
  simpa [sortedBidKeys, keysA] using h

theorem sortedAskKeys_length (b : Book) :
    (sortedAskKeys b).length = b.asks.length := by
  have h := (List.perm_insertionSort (fun a b : Int => a <= b) (keysA b.asks)).length_eq
  simpa [sortedAskKeys, keysA] using h

theorem sortedBidKeys_sorted {b : Book} (h : (keysA b.bids).Nodup) :
    (sortedBidKeys b).Sorted (fun a c : Int => a > c) :=
  List.Sorted.gt_of_ge (List.sorted_insertionSort _ _)
    (((List.perm_insertionSort _ _).nodup_iff).2 h)

theorem sortedAskKeys_sorted {b : Book} (h : (keysA b.asks).Nodup) :
    (sortedAskKeys b).Sorted (fun a c : Int => a < c) :=
  List.Sorted.lt_of_le (List.sorted_insertionSort _ _)
    (((List.perm_insertionSort _ _).nodup_iff).2 h)

theorem bidPrices_eq (b : Book) :
    bidPrices b = (sortedBidKeys b).take (min b.bids.length b.levels)
      ++ List.replicate (b.levels - b.bids.length) 0 := by
  rw [bidPrices, map_range_if]
  rw [map_getD_range _ _ (by rw [sortedBidKeys_length]; omega)]

theorem askPrices_eq (b : Book) :
    askPrices b = (sortedAskKeys b).take (min b.asks.length b.levels)
      ++ List.replicate (b.levels - b.asks.length) 0 := by
  rw [askPrices, map_range_if]
  rw [map_getD_range _ _ (by rw [sortedAskKeys_length]; omega)]


/-! ### Unfolding lemmas for the model operations -/

theorem complete_none {ol : Orderlist} {m : Message}
    (h : lookupA m.refno ol = none) :
    Orderlist.complete_message ol m = m := by
  simp [Orderlist.complete_message, h]

theorem complete_ECX {ol : Orderlist} {m : Message} {ref : Order}
    (h : lookupA m.refno ol = some ref)
    (ht : m.mtype = .E ∨ m.mtype = .C ∨ m.mtype = .X) :
    Orderlist.complete_message ol m =
      { m with name := ref.name, buysell := ref.buysell,
               price := ref.price, shares := -m.shares } := by
  rcases ht with h1 | h1 | h1 <;> simp [Orderlist.complete_message, h, h1]

theorem complete_D {ol : Orderlist} {m : Message} {ref : Order}
    (h : lookupA m.refno ol = some ref) (ht : m.mtype = .D) :
    Orderlist.complete_message ol m =
      { m with name := ref.name, buysell := ref.buysell,
               price := ref.price, shares := -ref.shares } := by
  simp [Orderlist.complete_message, h, ht]

theorem complete_U {ol : Orderlist} {m : Message} {ref : Order}
    (h : lookupA m.refno ol = some ref) (ht : m.mtype = .U) :
    Orderlist.complete_message ol m =
      { m with name := ref.name, buysell := ref.buysell } := by
  simp [Orderlist.complete_message, h, ht]

theorem complete_Uplus {ol : Orderlist} {m : Message} {ref : Order}
    (h : lookupA m.refno ol = some ref) (ht : m.mtype = .Uplus) :
    Orderlist.complete_message ol m =
      { m with mtype := .A, name := ref.name, buysell := ref.buysell,
               refno := m.newrefno, newrefno := -1 } := by
  simp [Orderlist.complete_message, h, ht]

theorem update_none {ol : Orderlist} {m : Message}
    (h : lookupA m.refno ol = none) : Orderlist.update ol m = ol := by
  simp [Orderlist.update, h]

theorem update_ECX {ol : Orderlist} {m : Message} {ref : Order}
    (h : lookupA m.refno ol = some ref)
    (ht : m.mtype = .E ∨ m.mtype = .C ∨ m.mtype = .X) :
    Orderlist.update ol m =
      setA m.refno { ref with shares := ref.shares + m.shares } ol := by
  rcases ht with h1 | h1 | h1 <;> simp [Orderlist.update, h, h1]

theorem update_D {ol : Orderlist} {m : Message} {ref : Order}
    (h : lookupA m.refno ol = some ref) (ht : m.mtype = .D) :
    Orderlist.update ol m = eraseA m.refno ol := by
  simp [Orderlist.update, h, ht]

theorem booklist_update_none {bl : Booklist} {m : Message}
    (h : lookupA m.name bl.books = none) : Booklist.update bl m = (bl, []) := by
  simp [Booklist.update, h]

theorem booklist_update_found {bl : Booklist} {m : Message} {e : BookEntry}
    (h : lookupA m.name bl.books = some e) :
    Booklist.update bl m =
      ({ bl with books := setA m.name (BookEntry.mk (e.hist ++ Booklist.rows bl.method (Book.update e.cur m)) (Book.update e.cur m)) bl.books },
       (Booklist.rows bl.method (Book.update e.cur m)).map (Emit.snap m.name)) := by
  simp [Booklist.update, h]

theorem booklist_update_hdf5 {bl : Booklist} {m : Message} {e : BookEntry}
    (h : lookupA m.name bl.books = some e) (hm : bl.method = "hdf5") :
    Booklist.update bl m =
      ({ bl with books := setA m.name (BookEntry.mk (e.hist ++ [Row.arr (Book.update e.cur m).to_array]) (Book.update e.cur m)) bl.books },
       [Emit.snap m.name (Row.arr (Book.update e.cur m).to_array)]) := by
  simp [Booklist.update, Booklist.rows, h, hm]

theorem booklist_update_cur {bl : Booklist} {m : Message} {e : BookEntry}
    (h : lookupA m.name bl.books = some e) :
    ∃ hs, (Booklist.update bl m).1 =
      { bl with books := setA m.name ⟨hs, Book.update e.cur m⟩ bl.books } :=
  ⟨e.hist ++ Booklist.rows bl.method (Book.update e.cur m),
    by simp [Booklist.update, h]⟩

theorem book_update_B_pres {b : Book} {m : Message} {v : Int}
    (hbs : m.buysell = 'B') (hl : lookupA m.price b.bids = some v)
    (hnz : ¬ v + m.shares = 0) :
    Book.update b m =
      { b with sec := m.sec, nano := m.nano,
               bids := setA m.price (v + m.shares) b.bids } := by
  simp [Book.update, hbs, hl, hnz]

theorem book_update_B_zero {b : Book} {m : Message} {v : Int}
    (hbs : m.buysell = 'B') (hl : lookupA m.price b.bids = some v)
    (hz : v + m.shares = 0) :
    Book.update b m =
      { b with sec := m.sec, nano := m.nano, bids := eraseA m.price b.bids } := by
  simp [Book.update, hbs, hl, hz]

theorem book_update_B_new {b : Book} {m : Message}
    (hbs : m.buysell = 'B') (hl : lookupA m.price b.bids = none)
    (hAF : m.mtype = .A ∨ m.mtype = .F) :
    Book.update b m =
      { b with sec := m.sec, nano := m.nano,
               bids := setA m.price m.shares b.bids } := by
  rcases hAF with h1 | h1 <;> simp [Book.update, hbs, hl, h1]

theorem book_update_B_skip {b : Book} {m : Message}
    (hbs : m.buysell = 'B') (hl : lookupA m.price b.bids = none)
    (hAF : ¬ (m.mtype = .A ∨ m.mtype = .F)) :
    Book.update b m = { b with sec := m.sec, nano := m.nano } := by
  simp [Book.update, hbs, hl, hAF]

theorem book_update_S_pres {b : Book} {m : Message} {v : Int}
    (hbs : m.buysell = 'S') (hl : lookupA m.price b.asks = some v)
    (hnz : ¬ v + m.shares = 0) :
    Book.update b m =
      { b with sec := m.sec, nano := m.nano,
               asks := setA m.price (v + m.shares) b.asks } := by
  simp [Book.update, hbs, hl, hnz]

theorem book_update_S_zero {b : Book} {m : Message} {v : Int}
    (hbs : m.buysell = 'S') (hl : lookupA m.price b.asks = some v)
    (hz : v + m.shares = 0) :
    Book.update b m =
      { b with sec := m.sec, nano := m.nano, asks := eraseA m.price b.asks } := by
  simp [Book.update, hbs, hl, hz]

theorem book_update_S_new {b : Book} {m : Message}
    (hbs : m.buysell = 'S') (hl : lookupA m.price b.asks = none)
    (hAF : m.mtype = .A ∨ m.mtype = .F) :
    Book.update b m =
      { b with sec := m.sec, nano := m.nano,
               asks := setA m.price m.shares b.asks } := by
  rcases hAF with h1 | h1 <;> simp [Book.update, hbs, hl, h1]

theorem book_update_S_skip {b : Book} {m : Message}
    (hbs : m.buysell = 'S') (hl : lookupA m.price b.asks = none)
    (hAF : ¬ (m.mtype = .A ∨ m.mtype = .F)) :
    Book.update b m = { b with sec := m.sec, nano := m.nano } := by
  simp [Book.update, hbs, hl, hAF]

theorem keysA_append (l l2 : List (α × β)) :
    keysA (l ++ l2) = keysA l ++ keysA l2 := by
  simp [keysA]

theorem sumBy_single (G : α × β → Int) (k : α) (v : β) :
    sumBy G [(k, v)] = G (k, v) := by
  simp [sumBy]


/-! ### Book-invariant preservation -/

theorem nodup_append_single {l : List α} {a : α} (h : l.Nodup) (ha : a ∉ l) :
    (l ++ [a]).Nodup := by
  simp [List.nodup_append, h, ha]

theorem bookInv_congr {ol ol' : Orderlist} {n : String} {b : Book}
    (hOrd : ∀ s p, ordSumAt ol' n s p = ordSumAt ol n s p)
    (hReg : ∀ s, regSumSide ol' n s = regSumSide ol n s)
    (hB : BookInv ol n b) : BookInv ol' n b := by
  refine ⟨hB.bidsNodup, hB.asksNodup, ?_, ?_, hB.bidPos, hB.askPos, ?_, ?_⟩
  · intro p; rw [hOrd]; exact hB.bidLevel p
  · intro p; rw [hOrd]; exact hB.askLevel p
  · rw [hReg]; exact hB.bidTotal
  · rw [hReg]; exact hB.askTotal

theorem bookInv_timestamp {ol : Orderlist} {n : String} {b : Book}
    (s2 n2 : Int) (hB : BookInv ol n b) :
    BookInv ol n { b with sec := s2, nano := n2 } :=
  ⟨hB.bidsNodup, hB.asksNodup, hB.bidLevel, hB.askLevel, hB.bidPos, hB.askPos,
   hB.bidTotal, hB.askTotal⟩

theorem bookInv_dec {ol ol' : Orderlist} {n : String} {b : Book} {cm : Message}
    {w : Int}
    (hB : BookInv ol n b)
    (hside : cm.buysell = 'B' ∨ cm.buysell = 'S')
    (hAF : ¬ (cm.mtype = .A ∨ cm.mtype = .F))
    (hw : 0 ≤ w) (hsh : cm.shares = -w)
    (hbound : w ≤ ordSumAt ol n cm.buysell cm.price)
    (hOrd : ∀ s p, ordSumAt ol' n s p =
        if s = cm.buysell ∧ p = cm.price then ordSumAt ol n s p - w
        else ordSumAt ol n s p)
    (hReg : ∀ s, regSumSide ol' n s =
        if s = cm.buysell then regSumSide ol n s - w else regSumSide ol n s) :
    BookInv ol' n (Book.update b cm) := by
  rcases hside with hbs | hbs
  · -- bid side
    have hSB : ('S' : Char) ≠ 'B' := by decide
    simp only [hbs] at hOrd hReg hbound
    cases hl : lookupA cm.price b.bids with
    | none =>
      have h0 : ordSumAt ol n 'B' cm.price = 0 := by
        have hx := hB.bidLevel cm.price
        rw [hl] at hx
        simpa using hx.symm
      have hw0 : w = 0 := by rw [h0] at hbound; omega
      rw [book_update_B_skip hbs hl hAF]
      subst hw0
      refine ⟨hB.bidsNodup, hB.asksNodup, ?_, ?_, hB.bidPos, hB.askPos, ?_, ?_⟩
      · intro p; rw [hOrd]; simpa using hB.bidLevel p
      · intro p; rw [hOrd]; simpa using hB.askLevel p
      · rw [hReg]; simpa using hB.bidTotal
      · rw [hReg]; simpa using hB.askTotal
    | some v =>
      have hv : v = ordSumAt ol n 'B' cm.price := by
        have hx := hB.bidLevel cm.price
        rw [hl] at hx
        simpa using hx
      have hvw : w ≤ v := hv ▸ hbound
      by_cases hz : v + cm.shares = 0
      · rw [book_update_B_zero hbs hl hz]
        have hvw2 : v = w := by rw [hsh] at hz; omega
        refine ⟨keysA_eraseA_nodup hB.bidsNodup, hB.asksNodup, ?_, ?_, ?_,
                hB.askPos, ?_, ?_⟩
        · intro p
          by_cases hp : p = cm.price
          · subst hp
            rw [lookupA_eraseA_self hB.bidsNodup, hOrd, if_pos ⟨rfl, rfl⟩, ← hv]
            simp [hvw2]
          · rw [lookupA_eraseA_ne hp, hOrd, if_neg (fun hc => hp hc.2)]
            exact hB.bidLevel p
        · intro p
          rw [hOrd, if_neg (fun hc => hSB hc.1)]
          exact hB.askLevel p
        · intro p v2 hlook
          by_cases hp : p = cm.price
          · subst hp
            rw [lookupA_eraseA_self hB.bidsNodup] at hlook
            simp at hlook
          · rw [lookupA_eraseA_ne hp] at hlook
            exact hB.bidPos p v2 hlook
        · rw [hReg, if_pos rfl]
          have he : sumBy (fun q : Int × Int => q.2) (eraseA cm.price b.bids)
              = sumBy (fun q : Int × Int => q.2) b.bids - v := by
            simpa using sumBy_eraseA (fun q : Int × Int => q.2) hl
          have hbt := hB.bidTotal
          simp only [valsSum] at hbt ⊢
          rw [he, hbt]
          omega
        · rw [hReg, if_neg hSB]
          exact hB.askTotal
      · rw [book_update_B_pres hbs hl hz]
        refine ⟨keysA_setA_nodup hB.bidsNodup, hB.asksNodup, ?_, ?_, ?_,
                hB.askPos, ?_, ?_⟩
        · intro p
          by_cases hp : p = cm.price
          · subst hp
            rw [lookupA_setA_self, hOrd, if_pos ⟨rfl, rfl⟩, ← hv]
            simp [hsh]
            omega
          · rw [lookupA_setA_ne hp, hOrd, if_neg (fun hc => hp hc.2)]
            exact hB.bidLevel p
        · intro p
          rw [hOrd, if_neg (fun hc => hSB hc.1)]
          exact hB.askLevel p
        · intro p v2 hlook
          by_cases hp : p = cm.price
          · subst hp
            rw [lookupA_setA_self] at hlook
            have hv2 : v2 = v + cm.shares := by
              simpa using hlook.symm
            rw [hsh] at hz
            rw [hsh] at hv2
            omega
          · rw [lookupA_setA_ne hp] at hlook
            exact hB.bidPos p v2 hlook
        · rw [hReg, if_pos rfl]
          have he := sumBy_setA (fun q : Int × Int => q.2) hl (v + cm.shares)
          have hbt := hB.bidTotal
          simp only [valsSum] at hbt ⊢
          rw [he, hbt, hsh]
          omega
        · rw [hReg, if_neg hSB]
          exact hB.askTotal
  · -- ask side
    have hBS : ('B' : Char) ≠ 'S' := by decide
    simp only [hbs] at hOrd hReg hbound
    cases hl : lookupA cm.price b.asks with
    | none =>
      have h0 : ordSumAt ol n 'S' cm.price = 0 := by
        have hx := hB.askLevel cm.price
        rw [hl] at hx
        simpa using hx.symm
      have hw0 : w = 0 := by rw [h0] at hbound; omega
      rw [book_update_S_skip hbs hl hAF]
      subst hw0
      refine ⟨hB.bidsNodup, hB.asksNodup, ?_, ?_, hB.bidPos, hB.askPos, ?_, ?_⟩
      · intro p; rw [hOrd]; simpa using hB.bidLevel p
      · intro p; rw [hOrd]; simpa using hB.askLevel p
      · rw [hReg]; simpa using hB.bidTotal
      · rw [hReg]; simpa using hB.askTotal
    | some v =>
      have hv : v = ordSumAt ol n 'S' cm.price := by
        have hx := hB.askLevel cm.price
        rw [hl] at hx
        simpa using hx
      have hvw : w ≤ v := hv ▸ hbound
      by_cases hz : v + cm.shares = 0
      · rw [book_update_S_zero hbs hl hz]
        have hvw2 : v = w := by rw [hsh] at hz; omega
        refine ⟨hB.bidsNodup, keysA_eraseA_nodup hB.asksNodup, ?_, ?_, hB.bidPos,
                ?_, ?_, ?_⟩
        · intro p
          rw [hOrd, if_neg (fun hc => hBS hc.1)]
          exact hB.bidLevel p
        · intro p
          by_cases hp : p = cm.price
          · subst hp
            rw [lookupA_eraseA_self hB.asksNodup, hOrd, if_pos ⟨rfl, rfl⟩, ← hv]
            simp [hvw2]
          · rw [lookupA_eraseA_ne hp, hOrd, if_neg (fun hc => hp hc.2)]
            exact hB.askLevel p
        · intro p v2 hlook
          by_cases hp : p = cm.price
          · subst hp
            rw [lookupA_eraseA_self hB.asksNodup] at hlook
            simp at hlook
          · rw [lookupA_eraseA_ne hp] at hlook
            exact hB.askPos p v2 hlook
        · rw [hReg, if_neg hBS]
          exact hB.bidTotal
        · rw [hReg, if_pos rfl]
          have he : sumBy (fun q : Int × Int => q.2) (eraseA cm.price b.asks)
              = sumBy (fun q : Int × Int => q.2) b.asks - v := by
            simpa using sumBy_eraseA (fun q : Int × Int => q.2) hl
          have hat := hB.askTotal
          simp only [valsSum] at hat ⊢
          rw [he, hat]
          omega
      · rw [book_update_S_pres hbs hl hz]
        refine ⟨hB.bidsNodup, keysA_setA_nodup hB.asksNodup, ?_, ?_, hB.bidPos,
                ?_, ?_, ?_⟩
        · intro p
          rw [hOrd, if_neg (fun hc => hBS hc.1)]
          exact hB.bidLevel p
        · intro p
          by_cases hp : p = cm.price
          · subst hp
            rw [lookupA_setA_self, hOrd, if_pos ⟨rfl, rfl⟩, ← hv]
            simp [hsh]
            omega
          · rw [lookupA_setA_ne hp, hOrd, if_neg (fun hc => hp hc.2)]
            exact hB.askLevel p
        · intro p v2 hlook
          by_cases hp : p = cm.price
          · subst hp
            rw [lookupA_setA_self] at hlook
            have hv2 : v2 = v + cm.shares := by
              simpa using hlook.symm
            rw [hsh] at hz
            rw [hsh] at hv2
            omega
          · rw [lookupA_setA_ne hp] at hlook
            exact hB.askPos p v2 hlook
        · rw [hReg, if_neg hBS]
          exact hB.bidTotal
        · rw [hReg, if_pos rfl]
          have he := sumBy_setA (fun q : Int × Int => q.2) hl (v + cm.shares)
          have hat := hB.askTotal
          simp only [valsSum] at hat ⊢
          rw [he, hat, hsh]
          omega

theorem bookInv_addmsg {ol ol' : Orderlist} {n : String} {b : Book} {m : Message}
    (hB : BookInv ol n b)
    (hside : m.buysell = 'B' ∨ m.buysell = 'S')
    (hAF : m.mtype = .A ∨ m.mtype = .F)
    (hs : 0 < m.shares)
    (hOrd : ∀ s p, ordSumAt ol' n s p =
        if s = m.buysell ∧ p = m.price then ordSumAt ol n s p + m.shares
        else ordSumAt ol n s p)
    (hReg : ∀ s, regSumSide ol' n s =
        if s = m.buysell then regSumSide ol n s + m.shares
        else regSumSide ol n s) :
    BookInv ol' n (Book.update b m) := by
  rcases hside with hbs | hbs
  · have hSB : ('S' : Char) ≠ 'B' := by decide
    simp only [hbs] at hOrd hReg
    cases hl : lookupA m.price b.bids with
    | none =>
      have h0 : ordSumAt ol n 'B' m.price = 0 := by
        have hx := hB.bidLevel m.price
        rw [hl] at hx
        simpa using hx.symm
      rw [book_update_B_new hbs hl hAF]
      refine ⟨?_, hB.asksNodup, ?_, ?_, ?_, hB.askPos, ?_, ?_⟩
      · exact keysA_setA_nodup hB.bidsNodup
      · intro p
        by_cases hp : p = m.price
        · subst hp
          rw [lookupA_setA_self, hOrd, if_pos ⟨rfl, rfl⟩, h0]
          simp
        · rw [lookupA_setA_ne hp, hOrd, if_neg (fun hc => hp hc.2)]
          exact hB.bidLevel p
      · intro p
        rw [hOrd, if_neg (fun hc => hSB hc.1)]
        exact hB.askLevel p
      · intro p v2 hlook
        by_cases hp : p = m.price
        · subst hp
          rw [lookupA_setA_self] at hlook
          have : v2 = m.shares := by simpa using hlook.symm
          omega
        · rw [lookupA_setA_ne hp] at hlook
          exact hB.bidPos p v2 hlook
      · rw [hReg, if_pos rfl]
        rw [setA_absent hl]
        have ha := sumBy_append (fun q : Int × Int => q.2) b.bids [(m.price, m.shares)]
        have hsg := sumBy_single (fun q : Int × Int => q.2) m.price m.shares
        have hbt := hB.bidTotal
        simp only [valsSum] at hbt ⊢
        rw [ha, hsg, hbt]
      · rw [hReg, if_neg hSB]
        exact hB.askTotal
    | some v =>
      have hv : v = ordSumAt ol n 'B' m.price := by
        have hx := hB.bidLevel m.price
        rw [hl] at hx
        simpa using hx
      have hvpos : 0 < v := hB.bidPos m.price v hl
      have hz : ¬ v + m.shares = 0 := by omega
      rw [book_update_B_pres hbs hl hz]
      refine ⟨keysA_setA_nodup hB.bidsNodup, hB.asksNodup, ?_, ?_, ?_,
              hB.askPos, ?_, ?_⟩
      · intro p
        by_cases hp : p = m.price
        · subst hp
          rw [lookupA_setA_self, hOrd, if_pos ⟨rfl, rfl⟩, ← hv]
          rfl
        · rw [lookupA_setA_ne hp, hOrd, if_neg (fun hc => hp hc.2)]
          exact hB.bidLevel p
      · intro p
        rw [hOrd, if_neg (fun hc => hSB hc.1)]
        exact hB.askLevel p
      · intro p v2 hlook
        by_cases hp : p = m.price
        · subst hp
          rw [lookupA_setA_self] at hlook
          have : v2 = v + m.shares := by simpa using hlook.symm
          omega
        · rw [lookupA_setA_ne hp] at hlook
          exact hB.bidPos p v2 hlook
      · rw [hReg, if_pos rfl]
        have he := sumBy_setA (fun q : Int × Int => q.2) hl (v + m.shares)
        have hbt := hB.bidTotal
        simp only [valsSum] at hbt ⊢
        rw [he, hbt]
        omega
      · rw [hReg, if_neg hSB]
        exact hB.askTotal
  · have hBS : ('B' : Char) ≠ 'S' := by decide
    simp only [hbs] at hOrd hReg
    cases hl : lookupA m.price b.asks with
    | none =>
      have h0 : ordSumAt ol n 'S' m.price = 0 := by
        have hx := hB.askLevel m.price
        rw [hl] at hx
        simpa using hx.symm
      rw [book_update_S_new hbs hl hAF]
      refine ⟨hB.bidsNodup, ?_, ?_, ?_, hB.bidPos, ?_, ?_, ?_⟩
      · exact keysA_setA_nodup hB.asksNodup
      · intro p
        rw [hOrd, if_neg (fun hc => hBS hc.1)]
        exact hB.bidLevel p
      · intro p
        by_cases hp : p = m.price
        · subst hp
          rw [lookupA_setA_self, hOrd, if_pos ⟨rfl, rfl⟩, h0]
          simp
        · rw [lookupA_setA_ne hp, hOrd, if_neg (fun hc => hp hc.2)]
          exact hB.askLevel p
      · intro p v2 hlook
        by_cases hp : p = m.price
        · subst hp
          rw [lookupA_setA_self] at hlook
          have : v2 = m.shares := by simpa using hlook.symm
          omega
        · rw [lookupA_setA_ne hp] at hlook
          exact hB.askPos p v2 hlook
      · rw [hReg, if_neg hBS]
        exact hB.bidTotal
      · rw [hReg, if_pos rfl]
        rw [setA_absent hl]
        have ha := sumBy_append (fun q : Int × Int => q.2) b.asks [(m.price, m.shares)]
        have hsg := sumBy_single (fun q : Int × Int => q.2) m.price m.shares
        have hat := hB.askTotal
        simp only [valsSum] at hat ⊢
        rw [ha, hsg, hat]
    | some v =>
      have hv : v = ordSumAt ol n 'S' m.price := by
        have hx := hB.askLevel m.price
        rw [hl] at hx
        simpa using hx
      have hvpos : 0 < v := hB.askPos m.price v hl
      have hz : ¬ v + m.shares = 0 := by omega
      rw [book_update_S_pres hbs hl hz]
      refine ⟨hB.bidsNodup, keysA_setA_nodup hB.asksNodup, ?_, ?_, hB.bidPos,
              ?_, ?_, ?_⟩
      · intro p
        rw [hOrd, if_neg (fun hc => hBS hc.1)]
        exact hB.bidLevel p
      · intro p
        by_cases hp : p = m.price
        · subst hp
          rw [lookupA_setA_self, hOrd, if_pos ⟨rfl, rfl⟩, ← hv]
          rfl
        · rw [lookupA_setA_ne hp, hOrd, if_neg (fun hc => hp hc.2)]
          exact hB.askLevel p
      · intro p v2 hlook
        by_cases hp : p = m.price
        · subst hp
          rw [lookupA_setA_self] at hlook
          have : v2 = v + m.shares := by simpa using hlook.symm
          omega
        · rw [lookupA_setA_ne hp] at hlook
          exact hB.askPos p v2 hlook
      · rw [hReg, if_neg hBS]
        exact hB.bidTotal
      · rw [hReg, if_pos rfl]
        have he := sumBy_setA (fun q : Int × Int => q.2) hl (v + m.shares)
        have hat := hB.askTotal
        simp only [valsSum] at hat ⊢
        rw [he, hat]
        omega


/-! ### Registry-sum computation lemmas -/

theorem ordSumAt_append_single (ol : Orderlist) (r : Int) (o : Order)
    (n : String) (s : Char) (p : Int) :
    ordSumAt (ol ++ [(r, o)]) n s p
      = ordSumAt ol n s p
        + (if o.name = n ∧ o.buysell = s ∧ o.price = p then o.shares else 0) := by
  simp [ordSumAt, sumBy]

theorem regSumSide_append_single (ol : Orderlist) (r : Int) (o : Order)
    (n : String) (s : Char) :
    regSumSide (ol ++ [(r, o)]) n s
      = regSumSide ol n s + (if o.name = n ∧ o.buysell = s then o.shares else 0) := by
  simp [regSumSide, sumBy]

theorem ordSumAt_set_shares {ol : Orderlist} {r : Int} {ref : Order}
    (hl : lookupA r ol = some ref) (d : Int) (n : String) (s : Char) (p : Int) :
    ordSumAt (setA r { ref with shares := ref.shares + d } ol) n s p
      = ordSumAt ol n s p
        + (if ref.name = n ∧ ref.buysell = s ∧ ref.price = p then d else 0) := by
  have h := sumBy_setA
      (fun q : Int × Order =>
        if q.2.name = n ∧ q.2.buysell = s ∧ q.2.price = p then q.2.shares else 0)
      hl { ref with shares := ref.shares + d }
  simp only [ordSumAt]
  rw [h]
  by_cases hc : ref.name = n ∧ ref.buysell = s ∧ ref.price = p
  · simp only [hc]
    simp [hc]
    omega
  · simp [hc]

theorem regSumSide_set_shares {ol : Orderlist} {r : Int} {ref : Order}
    (hl : lookupA r ol = some ref) (d : Int) (n : String) (s : Char) :
    regSumSide (setA r { ref with shares := ref.shares + d } ol) n s
      = regSumSide ol n s + (if ref.name = n ∧ ref.buysell = s then d else 0) := by
  have h := sumBy_setA
      (fun q : Int × Order => if q.2.name = n ∧ q.2.buysell = s then q.2.shares else 0)
      hl { ref with shares := ref.shares + d }
  simp only [regSumSide]
  rw [h]
  by_cases hc : ref.name = n ∧ ref.buysell = s
  · simp [hc]
    omega
  · simp [hc]

theorem ordSumAt_erase {ol : Orderlist} {r : Int} {ref : Order}
    (hl : lookupA r ol = some ref) (n : String) (s : Char) (p : Int) :
    ordSumAt (eraseA r ol) n s p
      = ordSumAt ol n s p
        - (if ref.name = n ∧ ref.buysell = s ∧ ref.price = p then ref.shares else 0) := by
  have h := sumBy_eraseA
      (fun q : Int × Order =>
        if q.2.name = n ∧ q.2.buysell = s ∧ q.2.price = p then q.2.shares else 0)
      hl
  simp only [ordSumAt]
  rw [h]

theorem regSumSide_erase {ol : Orderlist} {r : Int} {ref : Order}
    (hl : lookupA r ol = some ref) (n : String) (s : Char) :
    regSumSide (eraseA r ol) n s
      = regSumSide ol n s - (if ref.name = n ∧ ref.buysell = s then ref.shares else 0) := by
  have h := sumBy_eraseA
      (fun q : Int × Order => if q.2.name = n ∧ q.2.buysell = s then q.2.shares else 0)
      hl
  simp only [regSumSide]
  rw [h]

theorem ordSumAt_nonneg_bound {names : List String} {ol : Orderlist} {bl : Booklist}
    {r : Int} {ref : Order} (hI : InvOB names ol bl)
    (hl : lookupA r ol = some ref) :
    ref.shares ≤ ordSumAt ol ref.name ref.buysell ref.price := by
  have hmem : (r, ref) ∈ ol := mem_of_lookupA hl
  have hnonneg : ∀ q ∈ ol, 0 ≤ (fun q : Int × Order =>
      if q.2.name = ref.name ∧ q.2.buysell = ref.buysell ∧ q.2.price = ref.price
      then q.2.shares else 0) q := by
    intro q hq
    by_cases hcq : q.2.name = ref.name ∧ q.2.buysell = ref.buysell ∧
        q.2.price = ref.price
    · simpa [hcq] using (hI.ordersOK q hq).1
    · simp [hcq]
  have hle := le_sumBy hmem hnonneg
  simpa [ordSumAt] using hle

/-! ### Invariant preservation per registry/book operation -/

theorem invOB_add {names : List String} {ol : Orderlist} {bl : Booklist}
    {m : Message}
    (hI : InvOB names ol bl)
    (hAF : m.mtype = .A ∨ m.mtype = .F)
    (hs : 0 < m.shares)
    (hbs : m.buysell = 'B' ∨ m.buysell = 'S')
    (hn : m.name ∈ names)
    (hfresh : lookupA m.refno ol = none) :
    InvOB names (Orderlist.add ol m) (Booklist.update bl m).1 := by
  have holEq : Orderlist.add ol m
      = ol ++ [(m.refno, (⟨m.name, m.buysell, m.price, m.shares⟩ : Order))] := by
    rw [Orderlist.add, setA_absent hfresh]
  obtain ⟨em, hem, hbem⟩ := hI.books m.name hn
  obtain ⟨hs2, hblEq⟩ := booklist_update_cur hem
  constructor
  · rw [holEq, keysA_append]
    exact nodup_append_single hI.olNodup (lookupA_eq_none.1 hfresh)
  · rw [holEq]
    intro p hp
    rcases List.mem_append.1 hp with h1 | h2
    · exact hI.ordersOK p h1
    · have hp2 : p = (m.refno, (⟨m.name, m.buysell, m.price, m.shares⟩ : Order)) := by
        simpa using h2
      subst hp2
      exact ⟨le_of_lt hs, hn, hbs⟩
  · intro n2 hn2
    by_cases hnm : n2 = m.name
    · subst hnm
      refine ⟨⟨hs2, Book.update em.cur m⟩, ?_, ?_⟩
      · rw [hblEq]
        exact lookupA_setA_self _ _ _
      · rw [holEq]
        apply bookInv_addmsg hbem hbs hAF hs
        · intro s p
          rw [ordSumAt_append_single]
          by_cases h1 : s = m.buysell
          · by_cases h2 : p = m.price
            · simp [h1, h2]
            · have h2x : ¬ m.price = p := fun hh => h2 hh.symm
              simp [h1, h2, h2x]
          · have h1x : ¬ m.buysell = s := fun hh => h1 hh.symm
            simp [h1, h1x]
        · intro s
          rw [regSumSide_append_single]
          by_cases h1 : s = m.buysell
          · simp [h1]
          · have h1x : ¬ m.buysell = s := fun hh => h1 hh.symm
            simp [h1, h1x]
    · obtain ⟨e, he, hbe⟩ := hI.books n2 hn2
      refine ⟨e, ?_, ?_⟩
      · rw [hblEq, lookupA_setA_ne hnm]
        exact he
      · rw [holEq]
        apply bookInv_congr ?_ ?_ hbe
        · intro s p
          rw [ordSumAt_append_single]
          have hx : ¬ m.name = n2 := fun hh => hnm hh.symm
          simp [hx]
        · intro s
          rw [regSumSide_append_single]
          have hx : ¬ m.name = n2 := fun hh => hnm hh.symm
          simp [hx]

theorem invOB_exec {names : List String} {ol : Orderlist} {bl : Booklist}
    {r : Int} {ref : Order} {cm : Message} {w : Int}
    (hI : InvOB names ol bl)
    (hl : lookupA r ol = some ref)
    (hrf : cm.refno = r) (hnm : cm.name = ref.name)
    (hbs2 : cm.buysell = ref.buysell) (hpr : cm.price = ref.price)
    (hsh : cm.shares = -w)
    (hECX : cm.mtype = .E ∨ cm.mtype = .C ∨ cm.mtype = .X)
    (hw0 : 0 ≤ w) (hwb : w ≤ ref.shares) :
    InvOB names (setA r { ref with shares := ref.shares + cm.shares } ol)
      (Booklist.update bl cm).1 := by
  have hmem : (r, ref) ∈ ol := mem_of_lookupA hl
  obtain ⟨hps, hpn, hpb⟩ := hI.ordersOK (r, ref) hmem
  have hem0 := hI.books ref.name hpn
  obtain ⟨em, hem, hbem⟩ := hem0
  have hem2 : lookupA cm.name bl.books = some em := by rw [hnm]; exact hem
  obtain ⟨hs2, hblEq⟩ := booklist_update_cur hem2
  have hAFx : ¬ (cm.mtype = .A ∨ cm.mtype = .F) := by
    rcases hECX with h | h | h <;> simp [h]
  constructor
  · exact keysA_setA_nodup hI.olNodup
  · intro p hp
    rcases mem_setA hp with h1 | h2
    · subst h1
      refine ⟨?_, hpn, hpb⟩
      simp only [hsh]
      simp
      omega
    · exact hI.ordersOK p h2
  · intro n2 hn2
    by_cases hnn : n2 = ref.name
    · subst hnn
      refine ⟨⟨hs2, Book.update em.cur cm⟩, ?_, ?_⟩
      · rw [hblEq, ← hnm]
        exact lookupA_setA_self _ _ _
      · apply bookInv_dec hbem ?_ hAFx hw0 hsh ?_ ?_ ?_
        · rw [hbs2]; exact hpb
        · rw [hbs2, hpr]
          exact le_trans hwb (ordSumAt_nonneg_bound hI hl)
        · intro s p
          rw [ordSumAt_set_shares hl cm.shares, hbs2, hpr, hsh]
          by_cases h1 : s = ref.buysell
          · by_cases h2 : p = ref.price
            · simp [h1, h2]
              omega
            · have h2x : ¬ ref.price = p := fun hh => h2 hh.symm
              simp [h1, h2, h2x]
          · have h1x : ¬ ref.buysell = s := fun hh => h1 hh.symm
            simp [h1, h1x]
        · intro s
          rw [regSumSide_set_shares hl cm.shares, hbs2, hsh]
          by_cases h1 : s = ref.buysell
          · simp [h1]
            omega
          · have h1x : ¬ ref.buysell = s := fun hh => h1 hh.symm
            simp [h1, h1x]
    · obtain ⟨e, he, hbe⟩ := hI.books n2 hn2
      refine ⟨e, ?_, ?_⟩
      · have hx : n2 ≠ cm.name := by rw [hnm]; exact hnn
        rw [hblEq, lookupA_setA_ne hx]
        exact he
      · apply bookInv_congr ?_ ?_ hbe
        · intro s p
          rw [ordSumAt_set_shares hl cm.shares]
          have hx : ¬ ref.name = n2 := fun hh => hnn hh.symm
          simp [hx]
        · intro s
          rw [regSumSide_set_shares hl cm.shares]
          have hx : ¬ ref.name = n2 := fun hh => hnn hh.symm
          simp [hx]

theorem invOB_del {names : List String} {ol : Orderlist} {bl : Booklist}
    {r : Int} {ref : Order} {cm : Message}
    (hI : InvOB names ol bl)
    (hl : lookupA r ol = some ref)
    (hrf : cm.refno = r) (hnm : cm.name = ref.name)
    (hbs2 : cm.buysell = ref.buysell) (hpr : cm.price = ref.price)
    (hsh : cm.shares = -ref.shares)
    (hD : cm.mtype = .D) :
    InvOB names (eraseA r ol) (Booklist.update bl cm).1 := by
  have hmem : (r, ref) ∈ ol := mem_of_lookupA hl
  obtain ⟨hps, hpn, hpb⟩ := hI.ordersOK (r, ref) hmem
  obtain ⟨em, hem, hbem⟩ := hI.books ref.name hpn
  have hem2 : lookupA cm.name bl.books = some em := by rw [hnm]; exact hem
  obtain ⟨hs2, hblEq⟩ := booklist_update_cur hem2
  have hAFx : ¬ (cm.mtype = .A ∨ cm.mtype = .F) := by simp [hD]
  constructor
  · exact keysA_eraseA_nodup hI.olNodup
  · intro p hp
    exact hI.ordersOK p (mem_eraseA hp)
  · intro n2 hn2
    by_cases hnn : n2 = ref.name
    · subst hnn
      refine ⟨⟨hs2, Book.update em.cur cm⟩, ?_, ?_⟩
      · rw [hblEq, ← hnm]
        exact lookupA_setA_self _ _ _
      · apply bookInv_dec hbem ?_ hAFx hps hsh ?_ ?_ ?_
        · rw [hbs2]; exact hpb
        · rw [hbs2, hpr]
          exact ordSumAt_nonneg_bound hI hl
        · intro s p
          rw [ordSumAt_erase hl, hbs2, hpr]
          by_cases h1 : s = ref.buysell
          · by_cases h2 : p = ref.price
            · simp [h1, h2]
            · have h2x : ¬ ref.price = p := fun hh => h2 hh.symm
              simp [h1, h2, h2x]
          · have h1x : ¬ ref.buysell = s := fun hh => h1 hh.symm
            simp [h1, h1x]
        · intro s
          rw [regSumSide_erase hl, hbs2]
          by_cases h1 : s = ref.buysell
          · simp [h1]
          · have h1x : ¬ ref.buysell = s := fun hh => h1 hh.symm
            simp [h1, h1x]
    · obtain ⟨e, he, hbe⟩ := hI.books n2 hn2
      refine ⟨e, ?_, ?_⟩
      · have hx : n2 ≠ cm.name := by rw [hnm]; exact hnn
        rw [hblEq, lookupA_setA_ne hx]
        exact he
      · apply bookInv_congr ?_ ?_ hbe
        · intro s p
          rw [ordSumAt_erase hl]
          have hx : ¬ ref.name = n2 := fun hh => hnn hh.symm
          simp [hx]
        · intro s
          rw [regSumSide_erase hl]
          have hx : ¬ ref.name = n2 := fun hh => hnn hh.symm
          simp [hx]


/-! ### Well-formedness extraction and step preservation -/

theorem okMsg_AF {names : List String} {st : PState} {m : Message}
    (hmt : m.mtype = .A ∨ m.mtype = .F) (hok : okMsgB names st m = true) :
    0 < m.shares ∧ (m.buysell = 'B' ∨ m.buysell = 'S') ∧
      (m.name ∈ names → lookupA m.refno st.orderlist = none) := by
  rcases hmt with h | h <;>
  · simp only [okMsgB, h, Bool.and_eq_true, Bool.or_eq_true, Bool.not_eq_true',
      decide_eq_true_eq, Option.isNone_iff_eq_none, decide_eq_false_iff_not] at hok
    refine ⟨hok.1.1, hok.1.2, fun hmem => ?_⟩
    rcases hok.2 with h2 | h2
    · exact absurd hmem h2
    · exact h2

theorem okMsg_ECX {names : List String} {st : PState} {m : Message}
    (hmt : m.mtype = .E ∨ m.mtype = .C ∨ m.mtype = .X)
    (hok : okMsgB names st m = true) :
    m.name = "." ∧ 0 ≤ m.shares ∧
      (∀ ref, lookupA m.refno st.orderlist = some ref → m.shares ≤ ref.shares) := by
  rcases hmt with h | h | h <;>
  · simp only [okMsgB, h, Bool.and_eq_true, decide_eq_true_eq] at hok
    refine ⟨hok.1.1, hok.1.2, fun ref href => ?_⟩
    have h2 := hok.2
    rw [href] at h2
    simpa using h2

theorem okMsg_D {names : List String} {st : PState} {m : Message}
    (hmt : m.mtype = .D) (hok : okMsgB names st m = true) : m.name = "." := by
  simp only [okMsgB, hmt, decide_eq_true_eq] at hok
  exact hok

theorem okMsg_U {names : List String} {st : PState} {m : Message}
    (hmt : m.mtype = .U) (hok : okMsgB names st m = true) :
    m.name = "." ∧ 0 < m.shares ∧
      (∀ ref, lookupA m.refno st.orderlist = some ref →
        lookupA m.newrefno st.orderlist = none ∨ m.newrefno = m.refno) := by
  simp only [okMsgB, hmt, Bool.and_eq_true, Bool.or_eq_true,
    decide_eq_true_eq, Option.isNone_iff_eq_none] at hok
  refine ⟨hok.1.1, hok.1.2, fun ref href => ?_⟩
  have h2 := hok.2
  rw [href] at h2
  simpa using h2

theorem inv_step_af {names : List String} {st : PState} {m : Message}
    (hI : Inv names st) (hmt : m.mtype = .A ∨ m.mtype = .F)
    (hok : okMsgB names st m = true) :
    Inv names (step names st m).1 := by
  obtain ⟨hs, hbs, hfr⟩ := okMsg_AF hmt hok
  by_cases hn : m.name ∈ names
  · rcases hmt with h1 | h1 <;>
    · simp only [step, h1]
      rw [if_pos hn]
      exact invOB_add hI (by simp [h1]) hs hbs hn (hfr hn)
  · rcases hmt with h1 | h1 <;>
    · simp only [step, h1]
      rw [if_neg hn]
      exact hI

theorem inv_step_ecx {names : List String} {st : PState} {m : Message}
    (hdot : "." ∉ names) (hI : Inv names st)
    (hmt : m.mtype = .E ∨ m.mtype = .C ∨ m.mtype = .X)
    (hok : okMsgB names st m = true) :
    Inv names (step names st m).1 := by
  obtain ⟨hname, hsh0, hbound⟩ := okMsg_ECX hmt hok
  have hmt2 : m.mtype = .E ∨ m.mtype = .C ∨ m.mtype = .X := hmt
  rcases hmt with h1 | h1 | h1
  all_goals
    cases hl : lookupA m.refno st.orderlist with
    | none =>
      have hcm := complete_none hl
      have hnn : ¬ (Orderlist.complete_message st.orderlist m).name ∈ names := by
        rw [hcm, hname]; exact hdot
      simp only [step, h1]
      rw [if_neg hnn]
      exact hI
    | some ref =>
      obtain ⟨hps, hpn, hpb⟩ := hI.ordersOK (m.refno, ref) (mem_of_lookupA hl)
      have hcm := complete_ECX hl (by simp [h1])
      have hin : (Orderlist.complete_message st.orderlist m).name ∈ names := by
        rw [hcm]; exact hpn
      simp only [step, h1]
      rw [if_pos hin]
      have hl2 : lookupA (Orderlist.complete_message st.orderlist m).refno
          st.orderlist = some ref := by rw [hcm]; exact hl
      have hupd := update_ECX hl2 (by rw [hcm]; simp [h1])
      show InvOB names _ _
      rw [hupd]
      exact invOB_exec hI hl2 rfl (by rw [hcm]) (by rw [hcm]) (by rw [hcm])
        (by rw [hcm]) (by rw [hcm]; simp [h1]) hsh0 (hbound ref hl)

theorem inv_step_d {names : List String} {st : PState} {m : Message}
    (hdot : "." ∉ names) (hI : Inv names st) (hmt : m.mtype = .D)
    (hok : okMsgB names st m = true) :
    Inv names (step names st m).1 := by
  have hname := okMsg_D hmt hok
  cases hl : lookupA m.refno st.orderlist with
  | none =>
    have hcm := complete_none hl
    have hnn : ¬ (Orderlist.complete_message st.orderlist m).name ∈ names := by
      rw [hcm, hname]; exact hdot
    simp only [step, hmt]
    rw [if_neg hnn]
    exact hI
  | some ref =>
    obtain ⟨hps, hpn, hpb⟩ := hI.ordersOK (m.refno, ref) (mem_of_lookupA hl)
    have hcm := complete_D hl hmt
    have hin : (Orderlist.complete_message st.orderlist m).name ∈ names := by
      rw [hcm]; exact hpn
    simp only [step, hmt]
    rw [if_pos hin]
    have hl2 : lookupA (Orderlist.complete_message st.orderlist m).refno
        st.orderlist = some ref := by rw [hcm]; exact hl
    have hupd := update_D hl2 (by rw [hcm]; exact hmt)
    have hrr2 : Orderlist.update st.orderlist
        (Orderlist.complete_message st.orderlist m) = eraseA m.refno st.orderlist := by
      rw [hupd, hcm]
    show InvOB names _ _
    rw [hrr2]
    exact invOB_del hI hl (by rw [hcm]) (by rw [hcm]) (by rw [hcm])
      (by rw [hcm]) (by rw [hcm]) (by rw [hcm]; exact hmt)

theorem inv_step_u {names : List String} {st : PState} {m : Message}
    (hdot : "." ∉ names) (hI : Inv names st) (hmt : m.mtype = .U)
    (hok : okMsgB names st m = true) :
    Inv names (step names st m).1 := by
  obtain ⟨hname, hsh0, hfreshU⟩ := okMsg_U hmt hok
  cases hl : lookupA m.refno st.orderlist with
  | none =>
    have hl1 : lookupA (Message.split m).1.refno st.orderlist = none := hl
    have hcm := complete_none hl1
    have hnn : ¬ (Orderlist.complete_message st.orderlist
        (Message.split m).1).name ∈ names := by
      rw [hcm]
      exact hdot
    simp only [step, hmt]
    rw [if_neg hnn]
    exact hI
  | some ref =>
    obtain ⟨hps, hpn, hpb⟩ := hI.ordersOK (m.refno, ref) (mem_of_lookupA hl)
    have hlmark : lookupA (Message.split m).1.refno st.orderlist = some ref := hl
    have hldel : lookupA (Message.split m).2.1.refno st.orderlist = some ref := hl
    have hladd : lookupA (Message.split m).2.2.refno st.orderlist = some ref := hl
    have hcmark := complete_U hlmark rfl
    have hcdel := complete_D hldel rfl
    have hcadd := complete_Uplus hladd rfl
    have hin : (Orderlist.complete_message st.orderlist
        (Message.split m).1).name ∈ names := by
      rw [hcmark]; exact hpn
    simp only [step, hmt]
    rw [if_pos hin]
    show InvOB names _ _
    -- delete half: registry erase + book update
    have hldel2 : lookupA (Orderlist.complete_message st.orderlist
        (Message.split m).2.1).refno st.orderlist = some ref := by
      rw [hcdel]; exact hl
    have hupd := update_D hldel2 (by rw [hcdel]; rfl)
    have hrr2 : Orderlist.update st.orderlist (Orderlist.complete_message
        st.orderlist (Message.split m).2.1) = eraseA m.refno st.orderlist := by
      rw [hupd, hcdel]
      rfl
    rw [hrr2]
    have hI1 : InvOB names (eraseA m.refno st.orderlist)
        (Booklist.update st.booklist (Orderlist.complete_message st.orderlist
          (Message.split m).2.1)).1 :=
      invOB_del hI hl (by rw [hcdel]; rfl) (by rw [hcdel]) (by rw [hcdel])
        (by rw [hcdel]) (by rw [hcdel]) (by rw [hcdel]; rfl)
    -- add half: the new refno is fresh in the intermediate registry
    have hfresh2 : lookupA (Orderlist.complete_message st.orderlist
        (Message.split m).2.2).refno (eraseA m.refno st.orderlist) = none := by
      have hra : (Orderlist.complete_message st.orderlist
          (Message.split m).2.2).refno = m.newrefno := by rw [hcadd]; rfl
      rw [hra]
      rcases hfreshU ref hl with hnew | hnew
      · have hne : m.newrefno ≠ m.refno := by
          intro he
          rw [he, hl] at hnew
          simp at hnew
        rw [lookupA_eraseA_ne hne]
        exact hnew
      · rw [hnew]
        exact lookupA_eraseA_self hI.olNodup
    exact invOB_add hI1 (by rw [hcadd]; exact Or.inl rfl)
      (by rw [hcadd]; exact hsh0) (by rw [hcadd]; exact hpb)
      (by rw [hcadd]; exact hpn) hfresh2

theorem inv_step {names : List String} {st : PState} {m : Message}
    (hdot : "." ∉ names) (hI : Inv names st) (hok : okMsgB names st m = true) :
    Inv names (step names st m).1 := by
  cases hmt : m.mtype with
  | T => simpa [step, hmt] using hI
  | S => simpa [step, hmt] using hI
  | H => simpa [step, hmt] using hI
  | P => simpa [step, hmt] using hI
  | Q => simpa [step, hmt] using hI
  | I => simpa [step, hmt] using hI
  | Uplus => simpa [step, hmt] using hI
  | A => exact inv_step_af hI (Or.inl hmt) hok
  | F => exact inv_step_af hI (Or.inr hmt) hok
  | E => exact inv_step_ecx hdot hI (Or.inl hmt) hok
  | C => exact inv_step_ecx hdot hI (Or.inr (Or.inl hmt)) hok
  | X => exact inv_step_ecx hdot hI (Or.inr (Or.inr hmt)) hok
  | D => exact inv_step_d hdot hI hmt hok
  | U => exact inv_step_u hdot hI hmt hok

theorem inv_run {names : List String} (hdot : "." ∉ names) {msgs : List Message}
    {st : PState} (hI : Inv names st) (hok : okRunB names st msgs = true) :
    Inv names (runMsgs names st msgs) := by
  induction msgs generalizing st with
  | nil => exact hI
  | cons m ms ih =>
    simp only [okRunB, Bool.and_eq_true] at hok
    simp only [runMsgs]
    exact ih (inv_step hdot hI hok.1) hok.2

theorem inv_init (date : String) (names : List String) (levels : Nat)
    (method : String) : Inv names (initState date names levels method) := by
  constructor
  · simp [initState, keysA]
  · intro p hp
    simp [initState] at hp
  · intro n hn
    refine ⟨⟨[], Book.init date n levels⟩, ?_, ?_⟩
    · exact lookupA_map_self _ hn
    · constructor <;>
        simp [initState, Book.init, lookupA, ordSumAt, regSumSide, valsSum,
          sumBy, keysA]

theorem inv_reachable (date : String) (names : List String) (levels : Nat)
    (method : String) (msgs : List Message) (hdot : "." ∉ names)
    (hok : okRunB names (initState date names levels method) msgs = true) :
    Inv names (runMsgs names (initState date names levels method) msgs) :=
  inv_run hdot (inv_init date names levels method) hok

theorem regSum_eq_sides {ol : Orderlist} {n : String}
    (h : ∀ p ∈ ol, p.2.buysell = 'B' ∨ p.2.buysell = 'S') :
    regSum ol n = regSumSide ol n 'B' + regSumSide ol n 'S' := by
  have hBS : ('B' : Char) ≠ 'S' := by decide
  have hSB : ('S' : Char) ≠ 'B' := by decide
  induction ol with
  | nil => simp [regSum, regSumSide, sumBy]
  | cons p rest ih =>
    have hp := h p (List.mem_cons_self p rest)
    have hr := ih (fun q hq => h q (List.mem_cons_of_mem p hq))
    simp only [regSum, regSumSide, sumBy, List.map_cons, List.sum_cons] at hr ⊢
    rcases hp with hb | hb <;> by_cases hn2 : p.2.name = n <;>
      simp [hb, hn2, hBS, hSB] <;> try omega


/-! ### Claim theorems -/

theorem book_update_other {b : Book} {m : Message}
    (hb : ¬ m.buysell = 'B') (hs : ¬ m.buysell = 'S') :
    Book.update b m = { b with sec := m.sec, nano := m.nano } := by
  simp [Book.update, hb, hs]

/-- C10: every call to `Book.update` stamps the book's `sec` and `nano` with
the incoming message's timestamp, even when no price level changes; and for a
non-add message whose price is a key of neither side, the timestamp is the
only change — `bids`, `asks`, `levels`, `date` and `name` are untouched. -/
theorem c10_update_frame (b : Book) (m : Message) :
    (Book.update b m).sec = m.sec ∧ (Book.update b m).nano = m.nano ∧
    (m.mtype ≠ .A → m.mtype ≠ .F →
      lookupA m.price b.bids = none → lookupA m.price b.asks = none →
      (Book.update b m).bids = b.bids ∧ (Book.update b m).asks = b.asks ∧
      (Book.update b m).levels = b.levels ∧ (Book.update b m).date = b.date ∧
      (Book.update b m).name = b.name) := by
  by_cases hb : m.buysell = 'B'
  · cases hl : lookupA m.price b.bids with
    | some v =>
      by_cases hz : v + m.shares = 0
      · rw [book_update_B_zero hb hl hz]
        exact ⟨rfl, rfl, fun _ _ hno _ => absurd hno (by simp)⟩
      · rw [book_update_B_pres hb hl hz]
        exact ⟨rfl, rfl, fun _ _ hno _ => absurd hno (by simp)⟩
    | none =>
      by_cases hAF : m.mtype = .A ∨ m.mtype = .F
      · rw [book_update_B_new hb hl hAF]
        refine ⟨rfl, rfl, fun hA hF _ _ => ?_⟩
        rcases hAF with h | h
        · exact absurd h hA
        · exact absurd h hF
      · rw [book_update_B_skip hb hl hAF]
        exact ⟨rfl, rfl, fun _ _ _ _ => ⟨rfl, rfl, rfl, rfl, rfl⟩⟩
  · by_cases hs : m.buysell = 'S'
    · cases hl : lookupA m.price b.asks with
      | some v =>
        by_cases hz : v + m.shares = 0
        · rw [book_update_S_zero hs hl hz]
          exact ⟨rfl, rfl, fun _ _ _ hno => absurd hno (by simp)⟩
        · rw [book_update_S_pres hs hl hz]
          exact ⟨rfl, rfl, fun _ _ _ hno => absurd hno (by simp)⟩
      | none =>
        by_cases hAF : m.mtype = .A ∨ m.mtype = .F
        · rw [book_update_S_new hs hl hAF]
          refine ⟨rfl, rfl, fun hA hF _ _ => ?_⟩
          rcases hAF with h | h
          · exact absurd h hA
          · exact absurd h hF
        · rw [book_update_S_skip hs hl hAF]
          exact ⟨rfl, rfl, fun _ _ _ _ => ⟨rfl, rfl, rfl, rfl, rfl⟩⟩
    · rw [book_update_other hb hs]
      exact ⟨rfl, rfl, fun _ _ _ _ => ⟨rfl, rfl, rfl, rfl, rfl⟩⟩

/-- Witness for C10 at a concrete book and a concrete execute whose price is
on neither side. -/
theorem c10_update_frame_witness :
    (Book.update bexBook mexMsg).sec = mexMsg.sec ∧
    (Book.update bexBook mexMsg).nano = mexMsg.nano ∧
    (Book.update bexBook mexMsg).bids = bexBook.bids ∧
    (Book.update bexBook mexMsg).asks = bexBook.asks ∧
    (Book.update bexBook mexMsg).levels = bexBook.levels ∧
    (Book.update bexBook mexMsg).date = bexBook.date ∧
    (Book.update bexBook mexMsg).name = bexBook.name := by
  have h := c10_update_frame bexBook mexMsg
  have h3 := h.2.2 (by decide) (by decide) (by decide) (by decide)
  exact ⟨h.1, h.2.1, h3.1, h3.2.1, h3.2.2.1, h3.2.2.2.1, h3.2.2.2.2⟩

/-- C8: an execute, execute-with-price, cancel or delete whose refno is not in
the order registry is dropped silently: the state (registry, every book, every
sink list) and the emission trace are exactly as before.  Wire messages of
these types carry the placeholder name `"."` (the decoders never set `name`
on them), and `"."` is not subscribed. -/
theorem c8_unknown_refno (names : List String) (st : PState) (m : Message)
    (hmt : m.mtype = .E ∨ m.mtype = .C ∨ m.mtype = .X ∨ m.mtype = .D)
    (hun : lookupA m.refno st.orderlist = none)
    (hname : m.name = ".") (hdot : "." ∉ names) :
    step names st m = (st, []) := by
  have hcm := complete_none hun
  have hnn : ¬ (Orderlist.complete_message st.orderlist m).name ∈ names := by
    rw [hcm, hname]; exact hdot
  rcases hmt with h | h | h | h <;>
  · simp only [step, h]
    rw [if_neg hnn]

/-- Witness for C8: an execute against the never-added refno 99 leaves the
initial state untouched and emits nothing. -/
theorem c8_unknown_refno_witness : step ["GOOG"] st0 execUnknown = (st0, []) :=
  c8_unknown_refno ["GOOG"] st0 execUnknown (Or.inl rfl) (by decide) rfl
    (by decide)

/-- C6: the snapshot row produced by `Book.to_array` consists of the
timestamp followed by exactly `levels` bid prices, `levels` ask prices,
`levels` bid depths and `levels` ask depths; the non-sentinel bid prices are
strictly descending and the non-sentinel ask prices strictly ascending; when
a side has fewer than `levels` price levels the remaining entries of BOTH its
price segment and its share-count (depth) segment are the sentinel 0, and an
empty side contributes `levels` sentinel entries in each of its segments. -/
theorem c6_to_array (b : Book) (hN : 1 ≤ b.levels)
    (hbn : (keysA b.bids).Nodup) (han : (keysA b.asks).Nodup) :
    Book.to_array b
      = b.sec :: b.nano ::
          (bidPrices b ++ askPrices b ++ bidDepths b ++ askDepths b) ∧
    (bidPrices b).length = b.levels ∧ (askPrices b).length = b.levels ∧
    (bidDepths b).length = b.levels ∧ (askDepths b).length = b.levels ∧
    List.Sorted (fun a c : Int => a > c)
      ((bidPrices b).take (min b.bids.length b.levels)) ∧
    (∀ x ∈ (bidPrices b).drop (min b.bids.length b.levels), x = 0) ∧
    (∀ x ∈ (bidDepths b).drop (min b.bids.length b.levels), x = 0) ∧
    List.Sorted (fun a c : Int => a < c)
      ((askPrices b).take (min b.asks.length b.levels)) ∧
    (∀ x ∈ (askPrices b).drop (min b.asks.length b.levels), x = 0) ∧
    (∀ x ∈ (askDepths b).drop (min b.asks.length b.levels), x = 0) ∧
    (b.bids = [] → bidPrices b = List.replicate b.levels 0
      ∧ bidDepths b = List.replicate b.levels 0) ∧
    (b.asks = [] → askPrices b = List.replicate b.levels 0
      ∧ askDepths b = List.replicate b.levels 0) := by
  have hlenB : ((sortedBidKeys b).take (min b.bids.length b.levels)).length
      = min b.bids.length b.levels := by
    rw [List.length_take, sortedBidKeys_length]
    omega
  have hlenA : ((sortedAskKeys b).take (min b.asks.length b.levels)).length
      = min b.asks.length b.levels := by
    rw [List.length_take, sortedAskKeys_length]
    omega
  have hlenBD : ((List.range (min b.bids.length b.levels)).map
      (fun i => (lookupA ((sortedBidKeys b).getD i 0) b.bids).getD 0)).length
      = min b.bids.length b.levels := by
    simp
  have hlenAD : ((List.range (min b.asks.length b.levels)).map
      (fun i => (lookupA ((sortedAskKeys b).getD i 0) b.asks).getD 0)).length
      = min b.asks.length b.levels := by
    simp
  refine ⟨rfl, by simp [bidPrices], by simp [askPrices], by simp [bidDepths],
    by simp [askDepths], ?_, ?_, ?_, ?_, ?_, ?_, ?_, ?_⟩
  · have htake : (bidPrices b).take (min b.bids.length b.levels)
        = (sortedBidKeys b).take (min b.bids.length b.levels) := by
      rw [bidPrices_eq, List.take_left' hlenB]
    rw [htake]
    exact List.Pairwise.sublist (List.take_sublist _ _) (sortedBidKeys_sorted hbn)
  · intro x hx
    rw [bidPrices_eq, List.drop_left' hlenB] at hx
    exact List.eq_of_mem_replicate hx
  · intro x hx
    rw [bidDepths, map_range_if, List.drop_left' hlenBD] at hx
    exact List.eq_of_mem_replicate hx
  · have htake : (askPrices b).take (min b.asks.length b.levels)
        = (sortedAskKeys b).take (min b.asks.length b.levels) := by
      rw [askPrices_eq, List.take_left' hlenA]
    rw [htake]
    exact List.Pairwise.sublist (List.take_sublist _ _) (sortedAskKeys_sorted han)
  · intro x hx
    rw [askPrices_eq, List.drop_left' hlenA] at hx
    exact List.eq_of_mem_replicate hx
  · intro x hx
    rw [askDepths, map_range_if, List.drop_left' hlenAD] at hx
    exact List.eq_of_mem_replicate hx
  · intro hbe
    constructor
    · rw [bidPrices_eq, hbe]
      simp
    · rw [bidDepths, hbe]
      rw [map_range_if]
      simp
  · intro hae
    constructor
    · rw [askPrices_eq, hae]
      simp
    · rw [askDepths, hae]
      rw [map_range_if]
      simp

/-- Witness for C6 at the concrete book `bexBook` (one bid level, one ask
level, two configured levels). -/
theorem c6_to_array_witness :
    Book.to_array bexBook
      = bexBook.sec :: bexBook.nano ::
          (bidPrices bexBook ++ askPrices bexBook ++ bidDepths bexBook
            ++ askDepths bexBook) ∧
    (bidPrices bexBook).length = bexBook.levels ∧
    (askPrices bexBook).length = bexBook.levels ∧
    (bidDepths bexBook).length = bexBook.levels ∧
    (askDepths bexBook).length = bexBook.levels ∧
    List.Sorted (fun a c : Int => a > c)
      ((bidPrices bexBook).take (min bexBook.bids.length bexBook.levels)) ∧
    (∀ x ∈ (bidPrices bexBook).drop
        (min bexBook.bids.length bexBook.levels), x = 0) ∧
    (∀ x ∈ (bidDepths bexBook).drop
        (min bexBook.bids.length bexBook.levels), x = 0) ∧
    List.Sorted (fun a c : Int => a < c)
      ((askPrices bexBook).take (min bexBook.asks.length bexBook.levels)) ∧
    (∀ x ∈ (askPrices bexBook).drop
        (min bexBook.asks.length bexBook.levels), x = 0) ∧
    (∀ x ∈ (askDepths bexBook).drop
        (min bexBook.asks.length bexBook.levels), x = 0) ∧
    (bexBook.bids = [] → bidPrices bexBook = List.replicate bexBook.levels 0
      ∧ bidDepths bexBook = List.replicate bexBook.levels 0) ∧
    (bexBook.asks = [] → askPrices bexBook = List.replicate bexBook.levels 0
      ∧ askDepths bexBook = List.replicate bexBook.levels 0) :=
  c6_to_array bexBook (by decide) (by decide) (by decide)

/-- C3 (code bug): for version 5.0 the decoder reassembles the 48-bit
timestamp as `temp[2] | (temp[3] << 16)` (`v5Nano`) instead of the intended
`hi << 32 | lo` (`specNanoV5`).  At the spec's concrete input — an `'A'`
whose raw 48-bit timestamp is 34201123456789, i.e. high word 7963 and low
word 298878741 — the intended combination followed by the `get_message`
normalisation yields `sec = 34201`, `nano = 123456789`, but the code's
combination yields the wrong nanosecond value 19587317178139 and hence
`sec = 19587 ≠ 34201`. -/
theorem c3_v5_timestamp :
    (34201123456789 : Nat) >>> 32 = 7963 ∧
    (34201123456789 : Nat) % 2 ^ 32 = 298878741 ∧
    specNanoV5 7963 298878741 = 34201123456789 ∧
    (34201123456789 : Nat) / 10 ^ 9 = 34201 ∧
    (34201123456789 : Nat) % 10 ^ 9 = 123456789 ∧
    v5Nano 7963 298878741 = 19587317178139 ∧
    (get_message_v5 (protocolA_v5 7963 298878741 1 'B' 100 "GOOG" 4000000 0)).sec
      = 19587 ∧
    (get_message_v5 (protocolA_v5 7963 298878741 1 'B' 100 "GOOG" 4000000 0)).sec
      ≠ 34201 := by
  refine ⟨by decide, by decide, by decide, by decide, by decide, by decide,
    ?_, ?_⟩
  · decide
  · decide


/-- C1 (counterexample): along the run add(refno 1, 50 shares) — execute 50 —
execute 10 the feed never issues an add with a live refno (and all wire share
counts are non-negative, reference-only messages carry the placeholder name),
yet afterwards the registry share sum for GOOG is −10 while the book's
aggregate depth is 0: the third execute finds the zero-share ghost entry that
a full execute leaves behind, decrements it below zero, and the book — whose
level was already removed — is untouched. -/
theorem c1_counterexample :
    freshAddsB ["GOOG"] st0 [addGoog, execGoog50, execGoog10] = true ∧
    "." ∉ ["GOOG"] ∧
    regSum (runMsgs ["GOOG"] st0
        [addGoog, execGoog50, execGoog10]).orderlist "GOOG" = -10 ∧
    (lookupA "GOOG" (runMsgs ["GOOG"] st0
        [addGoog, execGoog50, execGoog10]).booklist.books).map
      (fun e => valsSum e.cur.bids + valsSum e.cur.asks) = some 0 := by
  exact ⟨by decide, by decide, by decide, by decide⟩

/-- C1 (amended): if additionally every add carries strictly positive shares
and a real side, and every execute/cancel removes at most the referenced
order's remaining shares, then after every fully processed event the sum of
registry shares for a subscribed symbol equals the sum of aggregate shares
over all price levels on both sides of that symbol's book. -/
theorem c1_sum_invariant (date : String) (names : List String) (levels : Nat)
    (method : String) (msgs : List Message) (n : String)
    (hdot : "." ∉ names) (hn : n ∈ names)
    (hok : okRunB names (initState date names levels method) msgs = true) :
    ∃ e, lookupA n (runMsgs names (initState date names levels method)
        msgs).booklist.books = some e ∧
      regSum (runMsgs names (initState date names levels method)
          msgs).orderlist n
        = valsSum e.cur.bids + valsSum e.cur.asks := by
  have hInv := inv_reachable date names levels method msgs hdot hok
  obtain ⟨e, he, hbe⟩ := hInv.books n hn
  refine ⟨e, he, ?_⟩
  rw [regSum_eq_sides (fun p hp => (hInv.ordersOK p hp).2.2)]
  rw [hbe.bidTotal, hbe.askTotal]

/-- Witness for C1 (amended) on a well-formed two-event feed. -/
theorem c1_sum_invariant_witness :
    ∃ e, lookupA "GOOG" (runMsgs ["GOOG"] (initState "0" ["GOOG"] 2 "hdf5")
        [addGoog, execGoog10]).booklist.books = some e ∧
      regSum (runMsgs ["GOOG"] (initState "0" ["GOOG"] 2 "hdf5")
          [addGoog, execGoog10]).orderlist "GOOG"
        = valsSum e.cur.bids + valsSum e.cur.asks :=
  c1_sum_invariant "0" ["GOOG"] 2 "hdf5" [addGoog, execGoog10] "GOOG"
    (by decide) (by decide) (by decide)

/-- C4 (counterexample): an add carrying zero shares mutates the book — the
bid map gains the key 4000000 — but the stored value is 0, which is not
strictly positive, and the zero level is not removed in that step (the
removal check only runs in the increment branch of `Book.update`). -/
theorem c4_counterexample :
    (lookupA "GOOG" st0.booklist.books).map (fun e => e.cur.bids) = some [] ∧
    (lookupA "GOOG" (runMsgs ["GOOG"] st0 [addGoogZero]).booklist.books).map
      (fun e => e.cur.bids) = some [(4000000, 0)] := by
  exact ⟨by decide, by decide⟩

/-- C4 (amended): for a well-formed feed — adds carry strictly positive
shares and fresh refnos, executes/cancels never exceed the resting shares —
every value stored in a subscribed symbol's bid and ask maps is strictly
positive after every processed event (a level reaching exactly zero is
removed in that same step). -/
theorem c4_positive_levels (date : String) (names : List String) (levels : Nat)
    (method : String) (msgs : List Message) (n : String)
    (hdot : "." ∉ names) (hn : n ∈ names)
    (hok : okRunB names (initState date names levels method) msgs = true) :
    ∃ e, lookupA n (runMsgs names (initState date names levels method)
        msgs).booklist.books = some e ∧
      (∀ p v, lookupA p e.cur.bids = some v → 0 < v) ∧
      (∀ p v, lookupA p e.cur.asks = some v → 0 < v) := by
  have hInv := inv_reachable date names levels method msgs hdot hok
  obtain ⟨e, he, hbe⟩ := hInv.books n hn
  exact ⟨e, he, hbe.bidPos, hbe.askPos⟩

/-- Witness for C4 (amended) on a well-formed one-event feed. -/
theorem c4_positive_levels_witness :
    ∃ e, lookupA "GOOG" (runMsgs ["GOOG"] (initState "0" ["GOOG"] 2 "hdf5")
        [addGoog]).booklist.books = some e ∧
      (∀ p v, lookupA p e.cur.bids = some v → 0 < v) ∧
      (∀ p v, lookupA p e.cur.asks = some v → 0 < v) :=
  c4_positive_levels "0" ["GOOG"] 2 "hdf5" [addGoog] "GOOG"
    (by decide) (by decide) (by decide)

/-- C5 (counterexample): after an execute for the order's full remaining
shares (refno 1 rests with 50 shares, the execute removes 50), the registry
STILL contains an entry for refno 1 — with zero shares — because
`Orderlist.update` never pops an order on a decrement, only on delete. -/
theorem c5_counterexample :
    lookupA (1 : Int) st1.orderlist = some ⟨"GOOG", 'B', 4000000, 50⟩ ∧
    execGoog50.mtype = .E ∧ execGoog50.refno = 1 ∧ execGoog50.shares = 50 ∧
    lookupA (1 : Int) (runMsgs ["GOOG"] st0 [addGoog, execGoog50]).orderlist
      = some ⟨"GOOG", 'B', 4000000, 0⟩ := by
  exact ⟨by decide, rfl, rfl, rfl, by decide⟩

/-- C5 (amended): a resting order is removed from the registry only by a
delete (including the delete-half of a replace); an execute, execute-with-
price or cancel — even for the order's full remaining shares — leaves the
entry in the registry with the decremented share count (zero after a full
execute). -/
theorem c5_registry_removal (names : List String) (st : PState) (m : Message)
    (ref : Order)
    (hnodup : (keysA st.orderlist).Nodup)
    (hres : lookupA m.refno st.orderlist = some ref)
    (hsub : ref.name ∈ names) :
    ((m.mtype = .E ∨ m.mtype = .C ∨ m.mtype = .X) →
      ∃ o2, lookupA m.refno (step names st m).1.orderlist = some o2 ∧
        o2.name = ref.name ∧ o2.buysell = ref.buysell ∧
        o2.price = ref.price ∧ o2.shares = ref.shares - m.shares) ∧
    (m.mtype = .D →
      lookupA m.refno (step names st m).1.orderlist = none) := by
  constructor
  · intro hmt
    have hcm := complete_ECX hres hmt
    have hin : (Orderlist.complete_message st.orderlist m).name ∈ names := by
      rw [hcm]; exact hsub
    have hl2 : lookupA (Orderlist.complete_message st.orderlist m).refno
        st.orderlist = some ref := by rw [hcm]; exact hres
    rcases hmt with h | h | h <;>
    · simp only [step, h]
      rw [if_pos hin]
      have hupd := update_ECX hl2 (by rw [hcm]; simp [h])
      rw [hupd, hcm]
      refine ⟨_, lookupA_setA_self _ _ _, rfl, rfl, rfl, ?_⟩
      show ref.shares + -m.shares = ref.shares - m.shares
      ring
  · intro hmt
    have hcm := complete_D hres hmt
    have hin : (Orderlist.complete_message st.orderlist m).name ∈ names := by
      rw [hcm]; exact hsub
    have hl2 : lookupA (Orderlist.complete_message st.orderlist m).refno
        st.orderlist = some ref := by rw [hcm]; exact hres
    simp only [step, hmt]
    rw [if_pos hin]
    rw [update_D hl2 (by rw [hcm]; exact hmt)]
    rw [hcm]
    show lookupA m.refno (eraseA m.refno st.orderlist) = none
    exact lookupA_eraseA_self hnodup

/-- Witness for C5 (amended): a full execute leaves refno 1 resident with
zero shares, and a delete removes it. -/
theorem c5_registry_removal_witness :
    (∃ o2, lookupA (1 : Int) (step ["GOOG"] st1 execGoog50).1.orderlist
        = some o2 ∧ o2.name = "GOOG" ∧ o2.buysell = 'B' ∧
        o2.price = 4000000 ∧ o2.shares = 50 - 50) ∧
    lookupA (1 : Int) (step ["GOOG"] st1 delGoog).1.orderlist = none :=
  ⟨(c5_registry_removal ["GOOG"] st1 execGoog50 ⟨"GOOG", 'B', 4000000, 50⟩
      (by decide) (by decide) (by decide)).1 (Or.inl rfl),
   (c5_registry_removal ["GOOG"] st1 delGoog ⟨"GOOG", 'B', 4000000, 50⟩
      (by decide) (by decide) (by decide)).2 rfl⟩


/-- C2 (counterexample): a replace whose new refno equals its old refno (the
old refno is resident and subscribed) leaves the registry containing an entry
for the old refno afterwards — the delete-half pops it and the add-half
re-inserts the same key — contradicting the claim's unconditional
"no entry for old_refno". -/
theorem c2_counterexample :
    lookupA (1 : Int) st1.orderlist = some ⟨"GOOG", 'B', 4000000, 50⟩ ∧
    replGoogSame.mtype = .U ∧ replGoogSame.refno = 1 ∧
    replGoogSame.newrefno = 1 ∧
    lookupA (1 : Int) (step ["GOOG"] st1 replGoogSame).1.orderlist
      = some ⟨"GOOG", 'B', 4010000, 50⟩ := by
  exact ⟨by decide, rfl, rfl, rfl, by decide⟩

/-- C2 (amended): a replace whose old refno is resident with a subscribed
symbol is split into the informational `'U'` marker, a synthetic delete of
the old refno and a synthetic add under the new refno inheriting symbol and
side from the resting order; it is applied as registry delete, book delete,
registry add, book add; and — provided the new refno differs from the old —
afterwards the registry holds the new refno and no longer the old one. -/
theorem c2_replace_split (names : List String) (st : PState) (m : Message)
    (o : Order)
    (hnodup : (keysA st.orderlist).Nodup)
    (hmt : m.mtype = .U)
    (hres : lookupA m.refno st.orderlist = some o)
    (hsub : o.name ∈ names)
    (hneq : m.newrefno ≠ m.refno) :
    (replMark st.orderlist m).mtype = .U ∧
    (replMark st.orderlist m).refno = m.refno ∧
    (replMark st.orderlist m).newrefno = m.newrefno ∧
    (replDel st.orderlist m).mtype = .D ∧
    (replDel st.orderlist m).refno = m.refno ∧
    (replAdd st.orderlist m).mtype = .A ∧
    (replAdd st.orderlist m).refno = m.newrefno ∧
    (replAdd st.orderlist m).name = o.name ∧
    (replAdd st.orderlist m).buysell = o.buysell ∧
    (replAdd st.orderlist m).price = m.price ∧
    (replAdd st.orderlist m).shares = m.shares ∧
    (step names st m).1.orderlist
      = Orderlist.add (Orderlist.update st.orderlist (replDel st.orderlist m))
          (replAdd st.orderlist m) ∧
    (step names st m).1.booklist
      = (Booklist.update (Booklist.update st.booklist
          (replDel st.orderlist m)).1 (replAdd st.orderlist m)).1 ∧
    lookupA m.newrefno (step names st m).1.orderlist
      = some ⟨o.name, o.buysell, m.price, m.shares⟩ ∧
    lookupA m.refno (step names st m).1.orderlist = none := by
  have hlmark : lookupA (Message.split m).1.refno st.orderlist = some o := hres
  have hldel : lookupA (Message.split m).2.1.refno st.orderlist = some o := hres
  have hladd : lookupA (Message.split m).2.2.refno st.orderlist = some o := hres
  have hcmark := complete_U hlmark rfl
  have hcdel := complete_D hldel rfl
  have hcadd := complete_Uplus hladd rfl
  have hin : (Orderlist.complete_message st.orderlist
      (Message.split m).1).name ∈ names := by
    rw [hcmark]; exact hsub
  have hstate : (step names st m).1 =
      ⟨Orderlist.add (Orderlist.update st.orderlist (replDel st.orderlist m))
          (replAdd st.orderlist m),
        (Booklist.update (Booklist.update st.booklist
          (replDel st.orderlist m)).1 (replAdd st.orderlist m)).1,
        Messagelist.add st.messagelist (replMark st.orderlist m)⟩ := by
    simp only [step, hmt, replDel, replAdd, replMark]
    rw [if_pos hin]
  have hldel2 : lookupA (Orderlist.complete_message st.orderlist
      (Message.split m).2.1).refno st.orderlist = some o := by
    rw [hcdel]; exact hres
  have hupd := update_D hldel2 (by rw [hcdel]; rfl)
  have hrr : Orderlist.update st.orderlist (Orderlist.complete_message
      st.orderlist (Message.split m).2.1) = eraseA m.refno st.orderlist := by
    rw [hupd, hcdel]
    rfl
  have holfinal : (step names st m).1.orderlist
      = setA m.newrefno ⟨o.name, o.buysell, m.price, m.shares⟩
          (eraseA m.refno st.orderlist) := by
    rw [hstate]
    show Orderlist.add (Orderlist.update st.orderlist (replDel st.orderlist m))
        (replAdd st.orderlist m) = _
    simp only [replDel, replAdd]
    rw [hrr]
    simp only [Orderlist.add]
    rw [hcadd]
    rfl
  refine ⟨?_, ?_, ?_, ?_, ?_, ?_, ?_, ?_, ?_, ?_, ?_, ?_, ?_, ?_, ?_⟩
  · simp only [replMark]; rw [hcmark]; rfl
  · simp only [replMark]; rw [hcmark]; rfl
  · simp only [replMark]; rw [hcmark]; rfl
  · simp only [replDel]; rw [hcdel]; rfl
  · simp only [replDel]; rw [hcdel]; rfl
  · simp only [replAdd]; rw [hcadd]
  · simp only [replAdd]; rw [hcadd]; rfl
  · simp only [replAdd]; rw [hcadd]
  · simp only [replAdd]; rw [hcadd]
  · simp only [replAdd]; rw [hcadd]; rfl
  · simp only [replAdd]; rw [hcadd]; rfl
  · rw [hstate]
  · rw [hstate]
  · rw [holfinal]
    exact lookupA_setA_self _ _ _
  · rw [holfinal, lookupA_setA_ne (fun hh => hneq hh.symm)]
    exact lookupA_eraseA_self hnodup

/-- Witness for C2 (amended) at the concrete replace `replGoog` against the
resident GOOG order under refno 1. -/
theorem c2_replace_split_witness :
    (replMark st1.orderlist replGoog).mtype = .U ∧
    (replMark st1.orderlist replGoog).refno = replGoog.refno ∧
    (replMark st1.orderlist replGoog).newrefno = replGoog.newrefno ∧
    (replDel st1.orderlist replGoog).mtype = .D ∧
    (replDel st1.orderlist replGoog).refno = replGoog.refno ∧
    (replAdd st1.orderlist replGoog).mtype = .A ∧
    (replAdd st1.orderlist replGoog).refno = replGoog.newrefno ∧
    (replAdd st1.orderlist replGoog).name = "GOOG" ∧
    (replAdd st1.orderlist replGoog).buysell = 'B' ∧
    (replAdd st1.orderlist replGoog).price = replGoog.price ∧
    (replAdd st1.orderlist replGoog).shares = replGoog.shares ∧
    (step ["GOOG"] st1 replGoog).1.orderlist
      = Orderlist.add (Orderlist.update st1.orderlist
          (replDel st1.orderlist replGoog)) (replAdd st1.orderlist replGoog) ∧
    (step ["GOOG"] st1 replGoog).1.booklist
      = (Booklist.update (Booklist.update st1.booklist
          (replDel st1.orderlist replGoog)).1 (replAdd st1.orderlist replGoog)).1 ∧
    lookupA replGoog.newrefno (step ["GOOG"] st1 replGoog).1.orderlist
      = some ⟨"GOOG", 'B', replGoog.price, replGoog.shares⟩ ∧
    lookupA replGoog.refno (step ["GOOG"] st1 replGoog).1.orderlist = none :=
  c2_replace_split ["GOOG"] st1 replGoog ⟨"GOOG", 'B', 4000000, 50⟩
    (by decide) rfl (by decide) (by decide) (by decide)


/-- C7 (counterexample): for the replace `replGoog` against the resident
subscribed GOOG order, the event's emission trace places the two book-sink
snapshot rows (delete-half, then add-half) BEFORE the informational marker on
the message sink — the marker is recorded last, not first. -/
theorem c7_counterexample :
    (step ["GOOG"] st1 replGoog).2
      = [Emit.snap "GOOG" (Row.arr [34201, 50, 0, 0, 0, 0, 0, 0, 0, 0]),
         Emit.snap "GOOG" (Row.arr [34201, 50, 4010000, 0, 0, 0, 50, 0, 0, 0]),
         Emit.msg "GOOG"
           { date := ".", name := "GOOG", sec := 34201, nano := 50, mtype := .U,
             buysell := 'B', price := 4010000, shares := 50, refno := 1,
             newrefno := 2 }] := by
  decide

/-- C7 (amended): when a replace for a subscribed symbol is processed under
the hdf5 sink, the informational marker is emitted to the message sink AFTER
the two resulting updates: the trace is the delete-half snapshot row, then the
add-half snapshot row, then the marker. -/
theorem c7_marker_after_updates (names : List String) (st : PState)
    (m : Message) (o : Order) (e : BookEntry)
    (hmt : m.mtype = .U)
    (hres : lookupA m.refno st.orderlist = some o)
    (hsub : o.name ∈ names)
    (hmeth : st.booklist.method = "hdf5")
    (he : lookupA o.name st.booklist.books = some e) :
    (step names st m).2
      = [Emit.snap o.name
           (Row.arr (Book.update e.cur (replDel st.orderlist m)).to_array),
         Emit.snap o.name (Row.arr (Book.update (Book.update e.cur
             (replDel st.orderlist m)) (replAdd st.orderlist m)).to_array),
         Emit.msg o.name (replMark st.orderlist m)] ∧
    (replMark st.orderlist m).mtype = .U ∧
    (replMark st.orderlist m).refno = m.refno ∧
    (replMark st.orderlist m).newrefno = m.newrefno := by
  have hlmark : lookupA (Message.split m).1.refno st.orderlist = some o := hres
  have hldel : lookupA (Message.split m).2.1.refno st.orderlist = some o := hres
  have hladd : lookupA (Message.split m).2.2.refno st.orderlist = some o := hres
  have hcmark := complete_U hlmark rfl
  have hcdel := complete_D hldel rfl
  have hcadd := complete_Uplus hladd rfl
  have hin : (Orderlist.complete_message st.orderlist
      (Message.split m).1).name ∈ names := by
    rw [hcmark]; exact hsub
  have hnd : (replDel st.orderlist m).name = o.name := by
    simp only [replDel]; rw [hcdel]
  have hna : (replAdd st.orderlist m).name = o.name := by
    simp only [replAdd]; rw [hcadd]
  have hnm : (replMark st.orderlist m).name = o.name := by
    simp only [replMark]; rw [hcmark]
  have hlk1 : lookupA (replDel st.orderlist m).name st.booklist.books
      = some e := by
    rw [hnd]; exact he
  have hbl1 := booklist_update_hdf5 hlk1 hmeth
  have hlk2 : lookupA (replAdd st.orderlist m).name
      (Booklist.update st.booklist (replDel st.orderlist m)).1.books
      = some ⟨e.hist
            ++ [Row.arr (Book.update e.cur (replDel st.orderlist m)).to_array],
          Book.update e.cur (replDel st.orderlist m)⟩ := by
    rw [hbl1, hna, hnd]
    exact lookupA_setA_self _ _ _
  have hmeth2 : (Booklist.update st.booklist
      (replDel st.orderlist m)).1.method = "hdf5" := by
    rw [hbl1]; exact hmeth
  have hbl2 := booklist_update_hdf5 hlk2 hmeth2
  refine ⟨?_, ?_, ?_, ?_⟩
  · simp only [step, hmt]
    rw [if_pos hin]
    show (Booklist.update st.booklist (replDel st.orderlist m)).2
        ++ (Booklist.update (Booklist.update st.booklist
              (replDel st.orderlist m)).1 (replAdd st.orderlist m)).2
        ++ [Emit.msg (replMark st.orderlist m).name (replMark st.orderlist m)]
      = _
    rw [hbl2, hbl1, hnd, hna, hnm]
    rfl
  · simp only [replMark]; rw [hcmark]; rfl
  · simp only [replMark]; rw [hcmark]; rfl
  · simp only [replMark]; rw [hcmark]; rfl

/-- Witness for C7 (amended) at the concrete replace `replGoog` against the
resident GOOG order in `st1`. -/
theorem c7_marker_after_updates_witness :
    (step ["GOOG"] st1 replGoog).2
      = [Emit.snap "GOOG" (Row.arr (Book.update st1Entry.cur
             (replDel st1.orderlist replGoog)).to_array),
         Emit.snap "GOOG" (Row.arr (Book.update (Book.update st1Entry.cur
             (replDel st1.orderlist replGoog))
             (replAdd st1.orderlist replGoog)).to_array),
         Emit.msg "GOOG" (replMark st1.orderlist replGoog)] ∧
    (replMark st1.orderlist replGoog).mtype = .U ∧
    (replMark st1.orderlist replGoog).refno = replGoog.refno ∧
    (replMark st1.orderlist replGoog).newrefno = replGoog.newrefno :=
  c7_marker_after_updates ["GOOG"] st1 replGoog ⟨"GOOG", 'B', 4000000, 50⟩
    st1Entry rfl (by decide) (by decide) (by decide) (by decide)


/-- C9 (counterexample): in `st2` the GOOG order at refno 1 is still resident
(with 0 remaining shares) and its price 4000000 is not a key of the bid side,
so the further execute `execGoog10` is a non-mutating update — yet processing
it still records a snapshot row: the history grows from 2 to 3 rows and the
trace contains a book-sink snapshot, contradicting "records no snapshot
row". -/
theorem c9_counterexample :
    lookupA (1 : Int) st2.orderlist = some ⟨"GOOG", 'B', 4000000, 0⟩ ∧
    (lookupA "GOOG" st2.booklist.books).map
        (fun e => lookupA (4000000 : Int) e.cur.bids) = some none ∧
    (lookupA "GOOG" st2.booklist.books).map (fun e => e.hist.length) = some 2 ∧
    (step ["GOOG"] st2 execGoog10).2
      = [Emit.snap "GOOG" (Row.arr [34201, 200, 0, 0, 0, 0, 0, 0, 0, 0]),
         Emit.msg "GOOG"
           { date := ".", name := "GOOG", sec := 34201, nano := 200,
             mtype := .E, buysell := 'B', price := 4000000, shares := -10,
             refno := 1, newrefno := -1 }] ∧
    (lookupA "GOOG" (step ["GOOG"] st2 execGoog10).1.booklist.books).map
        (fun e => e.hist.length) = some 3 := by
  decide

/-- C9 (amended): an execute/cancel/delete whose resolved (subscribed) order
rests at a price that is not a key of the corresponding book side leaves both
sides of the book unchanged — the update is non-mutating — but it is not
silent: under either configured sink method (`hdf5` or `postgres`) exactly one
snapshot row is still recorded — `Booklist.rows` is the singleton of the
method's row, the trace carries exactly that one book-sink record, and the
symbol's history is extended by exactly that row. -/
theorem c9_row_despite_missing_price (names : List String) (st : PState)
    (m : Message) (o : Order) (e : BookEntry)
    (hmt : m.mtype = .E ∨ m.mtype = .C ∨ m.mtype = .X ∨ m.mtype = .D)
    (hres : lookupA m.refno st.orderlist = some o)
    (hsub : o.name ∈ names)
    (hmeth : st.booklist.method = "hdf5" ∨ st.booklist.method = "postgres")
    (he : lookupA o.name st.booklist.books = some e)
    (hbs : o.buysell = 'B' ∨ o.buysell = 'S')
    (hmiss : lookupA o.price
        (if o.buysell = 'B' then e.cur.bids else e.cur.asks) = none) :
    Booklist.rows st.booklist.method
        (Book.update e.cur (Orderlist.complete_message st.orderlist m))
      = [if st.booklist.method = "hdf5"
          then Row.arr (Book.update e.cur
            (Orderlist.complete_message st.orderlist m)).to_array
          else (Book.update e.cur
            (Orderlist.complete_message st.orderlist m)).to_list] ∧
    (step names st m).2
      = (Booklist.rows st.booklist.method
          (Book.update e.cur (Orderlist.complete_message st.orderlist m))).map
            (Emit.snap o.name)
        ++ [Emit.msg o.name (Orderlist.complete_message st.orderlist m)] ∧
    lookupA o.name (step names st m).1.booklist.books
      = some ⟨e.hist ++ Booklist.rows st.booklist.method
            (Book.update e.cur (Orderlist.complete_message st.orderlist m)),
          Book.update e.cur (Orderlist.complete_message st.orderlist m)⟩ ∧
    (Book.update e.cur (Orderlist.complete_message st.orderlist m)).bids
      = e.cur.bids ∧
    (Book.update e.cur (Orderlist.complete_message st.orderlist m)).asks
      = e.cur.asks := by
  have hfacts : (Orderlist.complete_message st.orderlist m).name = o.name
      ∧ (Orderlist.complete_message st.orderlist m).mtype = m.mtype
      ∧ (Orderlist.complete_message st.orderlist m).buysell = o.buysell
      ∧ (Orderlist.complete_message st.orderlist m).price = o.price := by
    rcases hmt with h | h | h | h
    · rw [complete_ECX hres (Or.inl h)]; exact ⟨rfl, rfl, rfl, rfl⟩
    · rw [complete_ECX hres (Or.inr (Or.inl h))]; exact ⟨rfl, rfl, rfl, rfl⟩
    · rw [complete_ECX hres (Or.inr (Or.inr h))]; exact ⟨rfl, rfl, rfl, rfl⟩
    · rw [complete_D hres h]; exact ⟨rfl, rfl, rfl, rfl⟩
  obtain ⟨hname, hmtcm, hbscm, hprcm⟩ := hfacts
  have hin : (Orderlist.complete_message st.orderlist m).name ∈ names := by
    rw [hname]; exact hsub
  have hlk : lookupA (Orderlist.complete_message st.orderlist m).name
      st.booklist.books = some e := by
    rw [hname]; exact he
  have hbl := booklist_update_found hlk
  have hAF : ¬ ((Orderlist.complete_message st.orderlist m).mtype = .A
      ∨ (Orderlist.complete_message st.orderlist m).mtype = .F) := by
    rw [hmtcm]
    rcases hmt with h | h | h | h <;> simp [h]
  have hframe : Book.update e.cur (Orderlist.complete_message st.orderlist m)
      = { e.cur with
            sec := (Orderlist.complete_message st.orderlist m).sec,
            nano := (Orderlist.complete_message st.orderlist m).nano } := by
    rcases hbs with hB | hS
    · refine book_update_B_skip ?_ ?_ hAF
      · rw [hbscm]; exact hB
      · rw [hprcm]
        simpa [hB] using hmiss
    · have hnB : ¬ o.buysell = 'B' := by rw [hS]; decide
      refine book_update_S_skip ?_ ?_ hAF
      · rw [hbscm]; exact hS
      · rw [hprcm]
        simpa [hnB] using hmiss
  have hrows : Booklist.rows st.booklist.method
      (Book.update e.cur (Orderlist.complete_message st.orderlist m))
      = [if st.booklist.method = "hdf5"
          then Row.arr (Book.update e.cur
            (Orderlist.complete_message st.orderlist m)).to_array
          else (Book.update e.cur
            (Orderlist.complete_message st.orderlist m)).to_list] := by
    rcases hmeth with h | h <;> rw [h] <;> simp [Booklist.rows]
  have htr : (step names st m).2
      = (Booklist.rows st.booklist.method
          (Book.update e.cur (Orderlist.complete_message st.orderlist m))).map
            (Emit.snap o.name)
        ++ [Emit.msg o.name (Orderlist.complete_message st.orderlist m)] := by
    rcases hmt with h | h | h | h <;>
      (simp only [step, h]; rw [if_pos hin, hbl, hname]; try rfl)
  have hbooks : lookupA o.name (step names st m).1.booklist.books
      = some ⟨e.hist ++ Booklist.rows st.booklist.method
            (Book.update e.cur (Orderlist.complete_message st.orderlist m)),
          Book.update e.cur (Orderlist.complete_message st.orderlist m)⟩ := by
    rcases hmt with h | h | h | h <;>
      (simp only [step, h]; rw [if_pos hin, hbl, hname];
        exact lookupA_setA_self _ _ _)
  exact ⟨hrows, htr, hbooks, by rw [hframe], by rw [hframe]⟩

/-- Witness for C9 (amended) at the concrete non-mutating execute
`execGoog10` against `st2` (hdf5 sink). -/
theorem c9_row_despite_missing_price_witness :
    Booklist.rows st2.booklist.method (Book.update st2Entry.cur
        (Orderlist.complete_message st2.orderlist execGoog10))
      = [if st2.booklist.method = "hdf5"
          then Row.arr (Book.update st2Entry.cur
            (Orderlist.complete_message st2.orderlist execGoog10)).to_array
          else (Book.update st2Entry.cur
            (Orderlist.complete_message st2.orderlist execGoog10)).to_list] ∧
    (step ["GOOG"] st2 execGoog10).2
      = (Booklist.rows st2.booklist.method (Book.update st2Entry.cur
          (Orderlist.complete_message st2.orderlist execGoog10))).map
            (Emit.snap "GOOG")
        ++ [Emit.msg "GOOG"
              (Orderlist.complete_message st2.orderlist execGoog10)] ∧
    lookupA "GOOG" (step ["GOOG"] st2 execGoog10).1.booklist.books
      = some ⟨st2Entry.hist ++ Booklist.rows st2.booklist.method
            (Book.update st2Entry.cur
              (Orderlist.complete_message st2.orderlist execGoog10)),
          Book.update st2Entry.cur
            (Orderlist.complete_message st2.orderlist execGoog10)⟩ ∧
    (Book.update st2Entry.cur
        (Orderlist.complete_message st2.orderlist execGoog10)).bids
      = st2Entry.cur.bids ∧
    (Book.update st2Entry.cur
        (Orderlist.complete_message st2.orderlist execGoog10)).asks
      = st2Entry.cur.asks :=
  c9_row_despite_missing_price ["GOOG"] st2 execGoog10
    ⟨"GOOG", 'B', 4000000, 0⟩ st2Entry (Or.inl rfl) (by decide) (by decide)
    (Or.inl (by decide)) (by decide) (Or.inl rfl) (by decide)

end Prickle
